import Mathlib

/-!
Verification of the `ade` template engine (`ade/manager/template.py`,
`ade/manager/filesystem.py`).

Modelling conventions:
* Python dict-based fragments become the inductive type `Ade.Fragment`.
  Every fragment built by `register_templates` carries `name`, `folder` and
  `permission`; `permission` is modelled as `Option Nat` so that nodes that
  do not specify a permission (`entry.get('permission', 777)`) are
  representable; `content` and `children` default to `""`/`[]` exactly as
  the Python `.get` defaults do.
* Python string operations are modelled on `String.data` (lists of
  characters), e.g. `name.replace('@', '')` is a character filter, because
  the single-character pattern removes every occurrence.
* `os.sep` is modelled as `'/'` (POSIX platform).
* Python's `sorted` is a stable sort; for a total, transitive boolean key
  comparison the stable-sorted list is unique, so it is modelled with
  `List.insertionSort` (which is stable in the same sense).
* Exceptions become `Except` values: `KeyError` from `_get_in_register`
  is `RErr.keyError`.  The reference expansion of `_resolve_template`
  recurses without a cycle guard in Python (unbounded recursion on cyclic
  registers), so the model takes a fuel parameter and returns
  `RErr.noFuel` when the fuel runs out.
-/

namespace Ade

/-- A template fragment: the dictionaries built by
`TemplateManager.register_templates` and manipulated by the resolver
(`ade/manager/template.py`). -/
inductive Fragment where
  | mk (name : String) (folder : Bool) (permission : Option Nat)
       (content : String) (children : List Fragment)

def Fragment.name : Fragment → String
  | .mk n _ _ _ _ => n

def Fragment.folder : Fragment → Bool
  | .mk _ f _ _ _ => f

def Fragment.permission : Fragment → Option Nat
  | .mk _ _ p _ _ => p

def Fragment.content : Fragment → String
  | .mk _ _ _ c _ => c

def Fragment.children : Fragment → List Fragment
  | .mk _ _ _ _ _ch => _ch

/-- Replace the `children` field, keeping the other fields
(models in-place assignment to `fragment['children']`). -/
def Fragment.setChildren : Fragment → List Fragment → Fragment
  | .mk n f p c _, ch => .mk n f p c ch

@[simp] theorem Fragment.name_setChildren (t : Fragment) (ch : List Fragment) :
    (t.setChildren ch).name = t.name := by cases t; rfl

@[simp] theorem Fragment.children_setChildren (t : Fragment) (ch : List Fragment) :
    (t.setChildren ch).children = ch := by cases t; rfl

/-! ### String helpers (Python string operations on `List Char`) -/

/-- `var.replace('@', '').replace('+', '')`, the `sanitize` closure of
`TemplateManager.__init__` and `TemplateManager.resolve_template`
(template.py lines 47-57 and 291-301): a single-character
`str.replace` with empty replacement deletes every occurrence. -/
def sanitizeChars (l : List Char) : List Char :=
  l.filter (fun c => !(c == '@') && !(c == '+'))

/-- Python `str.lower()` restricted to ASCII, which is all the engine uses. -/
def lowerChars (l : List Char) : List Char := l.map Char.toLower

/-- Lexicographic comparison of two strings by code points:
the order Python uses for `str` comparison inside `sorted`. -/
def lexLE : List Char → List Char → Bool
  | [], _ => true
  | _ :: _, [] => false
  | a :: as, b :: bs =>
    if a.toNat = b.toNat then lexLE as bs else decide (a.toNat < b.toNat)

theorem lexLE_total (a b : List Char) : lexLE a b = true ∨ lexLE b a = true := by
  induction a generalizing b with
  | nil => left; rfl
  | cons x xs ih =>
    cases b with
    | nil => right; rfl
    | cons y ys =>
      by_cases hxy : x.toNat = y.toNat
      · rcases ih ys with h | h
        · left; simp [lexLE, hxy, h]
        · right; simp [lexLE, hxy.symm, h]
      · rcases Nat.lt_or_ge x.toNat y.toNat with h | h
        · left; simp [lexLE, hxy, h]
        · have hne : y.toNat ≠ x.toNat := fun he => hxy he.symm
          have hlt : y.toNat < x.toNat := lt_of_le_of_ne h hne
          right; simp [lexLE, hne, hlt]

theorem lexLE_trans (a b c : List Char) (hab : lexLE a b = true)
    (hbc : lexLE b c = true) : lexLE a c = true := by
  induction a generalizing b c with
  | nil => rfl
  | cons x xs ih =>
    cases b with
    | nil => simp [lexLE] at hab
    | cons y ys =>
      cases c with
      | nil => simp [lexLE] at hbc
      | cons z zs =>
        by_cases hxy : x.toNat = y.toNat
        · by_cases hyz : y.toNat = z.toNat
          · have hxz : x.toNat = z.toNat := hxy.trans hyz
            simp only [lexLE, if_pos hxy] at hab
            simp only [lexLE, if_pos hyz] at hbc
            simp only [lexLE, if_pos hxz]
            exact ih ys zs hab hbc
          · simp only [lexLE, if_neg hyz] at hbc
            have hlt : y.toNat < z.toNat := of_decide_eq_true hbc
            have hxz : x.toNat < z.toNat := hxy ▸ hlt
            simp [lexLE, Nat.ne_of_lt hxz, hxz]
        · simp only [lexLE, if_neg hxy] at hab
          have hlt : x.toNat < y.toNat := of_decide_eq_true hab
          by_cases hyz : y.toNat = z.toNat
          · have hxz : x.toNat < z.toNat := hyz ▸ hlt
            simp [lexLE, Nat.ne_of_lt hxz, hxz]
          · simp only [lexLE, if_neg hyz] at hbc
            have hlt2 : y.toNat < z.toNat := of_decide_eq_true hbc
            have hxz : x.toNat < z.toNat := hlt.trans hlt2
            simp [lexLE, Nat.ne_of_lt hxz, hxz]

/-! ### The canonical sort (`sort_children` closures) -/

/-- The sort key of `sort_children`
(template.py line 305): `(not(x.get('folder')), sanitize(x.get('name')).lower())`. -/
def childKey (x : Fragment) : Bool × List Char :=
  (!x.folder, lowerChars (sanitizeChars x.name.data))

/-- Python tuple comparison of two `childKey`s:
`False < True` on the first component, code-point order on the second. -/
def keyLE : Bool × List Char → Bool × List Char → Bool
  | (b1, s1), (b2, s2) => (!b1 && b2) || (b1 == b2 && lexLE s1 s2)

/-- The ordering `sorted` establishes among siblings. -/
def childLE (a b : Fragment) : Prop := keyLE (childKey a) (childKey b) = true

instance : DecidableRel childLE := fun a b =>
  inferInstanceAs (Decidable (keyLE (childKey a) (childKey b) = true))

theorem keyLE_total (x y : Bool × List Char) : keyLE x y = true ∨ keyLE y x = true := by
  rcases x with ⟨b1, s1⟩; rcases y with ⟨b2, s2⟩
  cases b1 <;> cases b2 <;> simp [keyLE] <;> exact lexLE_total _ _

theorem keyLE_trans (x y z : Bool × List Char) (hxy : keyLE x y = true)
    (hyz : keyLE y z = true) : keyLE x z = true := by
  rcases x with ⟨b1, s1⟩; rcases y with ⟨b2, s2⟩; rcases z with ⟨b3, s3⟩
  cases b1 <;> cases b2 <;> cases b3 <;>
    simp [keyLE] at hxy hyz ⊢ <;>
    exact lexLE_trans _ _ _ hxy hyz

instance : IsTotal Fragment childLE :=
  ⟨fun a b => keyLE_total (childKey a) (childKey b)⟩

instance : IsTrans Fragment childLE :=
  ⟨fun a b c => keyLE_trans (childKey a) (childKey b) (childKey c)⟩

/-- `sort_children` (template.py lines 303-310, and the identical closure in
`__init__` lines 59-67): replace the children with the canonically sorted
list, then recurse into each sorted child. -/
def sortChildren : Fragment → Fragment
  | .mk n f p c ch =>
    .mk n f p c ((List.insertionSort childLE ch).attach.map
      (fun x => sortChildren x.1))
termination_by t => sizeOf t
decreasing_by
  calc sizeOf x.1 < sizeOf (List.insertionSort childLE _) :=
        List.sizeOf_lt_of_mem x.2
    _ = _ := (List.perm_insertionSort childLE _).sizeOf_eq_sizeOf
    _ < _ := by simp only [Fragment.mk.sizeOf_spec]; omega

theorem sortChildren_mk (n : String) (f : Bool) (p : Option Nat) (c : String)
    (ch : List Fragment) :
    sortChildren (.mk n f p c ch) =
      .mk n f p c ((List.insertionSort childLE ch).map sortChildren) := by
  simp only [sortChildren]
  congr 1
  exact List.attach_map_coe _ _

theorem sortChildren_leaf (n : String) (f : Bool) (p : Option Nat)
    (c : String) : sortChildren (.mk n f p c []) = .mk n f p c [] := by
  rw [sortChildren_mk]; rfl

theorem sortChildren_single (n : String) (f : Bool) (p : Option Nat)
    (c : String) (x : Fragment) :
    sortChildren (.mk n f p c [x]) = .mk n f p c [sortChildren x] := by
  rw [sortChildren_mk]; rfl

theorem sortChildren_pair (n : String) (f : Bool) (p : Option Nat)
    (c : String) (a b : Fragment) :
    sortChildren (.mk n f p c [a, b]) =
      .mk n f p c (if childLE a b then [sortChildren a, sortChildren b]
        else [sortChildren b, sortChildren a]) := by
  rw [sortChildren_mk]
  by_cases h : childLE a b
  · rw [if_pos h]
    simp [List.insertionSort, List.orderedInsert, h]
  · rw [if_neg h]
    simp [List.insertionSort, List.orderedInsert, h]

@[simp] theorem childKey_sortChildren (t : Fragment) :
    childKey (sortChildren t) = childKey t := by
  cases t with
  | mk n f p c ch => rw [sortChildren_mk]; rfl

/-- Every sibling list of the tree is sorted by the canonical key, at
every depth. -/
inductive AllSorted : Fragment → Prop where
  | mk : ∀ (n : String) (f : Bool) (p : Option Nat) (c : String)
      (ch : List Fragment), List.Pairwise childLE ch →
      (∀ x ∈ ch, AllSorted x) → AllSorted (.mk n f p c ch)

theorem allSorted_sortChildren_aux :
    ∀ (N : Nat) (t : Fragment), sizeOf t ≤ N → AllSorted (sortChildren t) := by
  intro N
  induction N with
  | zero =>
    intro t ht
    cases t with
    | mk n f p c ch => simp only [Fragment.mk.sizeOf_spec] at ht; omega
  | succ N ih =>
    intro t ht
    cases t with
    | mk n f p c ch =>
      rw [sortChildren_mk]
      refine AllSorted.mk _ _ _ _ _ ?_ ?_
      · have hs : List.Pairwise childLE (List.insertionSort childLE ch) :=
          List.sorted_insertionSort childLE ch
        refine List.Pairwise.map sortChildren ?_ hs
        intro a b hab
        unfold childLE at hab ⊢
        rwa [childKey_sortChildren, childKey_sortChildren]
      · intro x hx
        rcases List.mem_map.mp hx with ⟨y, hy, rfl⟩
        have hy' : y ∈ ch := (List.perm_insertionSort childLE ch).mem_iff.mp hy
        have hsz : sizeOf y < sizeOf ch := List.sizeOf_lt_of_mem hy'
        refine ih y ?_
        simp only [Fragment.mk.sizeOf_spec] at ht
        omega

theorem allSorted_sortChildren (t : Fragment) : AllSorted (sortChildren t) :=
  allSorted_sortChildren_aux (sizeOf t) t le_rfl

/-! ### All nodes of a tree -/

mutual

/-- The node itself and all of its descendants. -/
def allNodes : Fragment → List Fragment
  | .mk n f p c ch => .mk n f p c ch :: allNodesList ch

/-- All nodes of all trees in a list. -/
def allNodesList : List Fragment → List Fragment
  | [] => []
  | x :: xs => allNodes x ++ allNodesList xs

end

theorem mem_allNodesList {x : Fragment} {l : List Fragment} :
    x ∈ allNodesList l ↔ ∃ c ∈ l, x ∈ allNodes c := by
  induction l with
  | nil => simp [allNodesList]
  | cons y ys ih =>
    simp only [allNodesList, List.mem_append, ih, List.mem_cons]
    constructor
    · rintro (h | ⟨c, hc, hx⟩)
      · exact ⟨y, Or.inl rfl, h⟩
      · exact ⟨c, Or.inr hc, hx⟩
    · rintro ⟨c, hc | hc, hx⟩
      · exact Or.inl (hc ▸ hx)
      · exact Or.inr ⟨c, hc, hx⟩

theorem self_mem_allNodes (t : Fragment) : t ∈ allNodes t := by
  cases t with
  | mk n f p c ch => rw [allNodes]; exact List.mem_cons_self _ _

/-- `sortChildren` only reorders the tree: every node of the sorted tree
has the name of some node of the original tree. -/
theorem allNodes_sortChildren_names :
    ∀ (N : Nat) (t : Fragment), sizeOf t ≤ N →
      ∀ x ∈ allNodes (sortChildren t), ∃ y ∈ allNodes t, x.name = y.name := by
  intro N
  induction N with
  | zero =>
    intro t ht
    cases t with
    | mk n f p c ch => simp only [Fragment.mk.sizeOf_spec] at ht; omega
  | succ N ih =>
    intro t ht x hx
    cases t with
    | mk n f p c ch =>
      rw [sortChildren_mk, allNodes] at hx
      rcases List.mem_cons.mp hx with rfl | hx
      · exact ⟨.mk n f p c ch, self_mem_allNodes _, rfl⟩
      · rcases mem_allNodesList.mp hx with ⟨c', hc', hxc⟩
        rcases List.mem_map.mp hc' with ⟨y0, hy0, rfl⟩
        have hy0' : y0 ∈ ch := (List.perm_insertionSort childLE ch).mem_iff.mp hy0
        have hsz : sizeOf y0 < sizeOf ch := List.sizeOf_lt_of_mem hy0'
        have hle : sizeOf y0 ≤ N := by
          simp only [Fragment.mk.sizeOf_spec] at ht
          omega
        rcases ih y0 hle x hxc with ⟨y, hy, hxy⟩
        refine ⟨y, ?_, hxy⟩
        rw [allNodes]
        exact List.mem_cons_of_mem _ (mem_allNodesList.mpr ⟨y0, hy0', hy⟩)

/-! ### Reference resolution -/

/-- Failures of the resolution pipeline.  `keyError` models the `KeyError`
raised by `_get_in_register`; `noFuel` stands for the unbounded recursion
a referential cycle causes in the Python code (documented limitation);
`typeError` models the `TypeError` Python raises when `find_path` is given
an empty `contains` token (`None in path_element`). -/
inductive RErr where
  | keyError (msg : String)
  | noFuel
  | typeError
  | indexError

/-- `TemplateManager._get_in_register` (template.py lines 236-266): return
the first register item with the given name, or raise `KeyError`. -/
def _get_in_register (register : List Fragment) (name : String) :
    Except RErr Fragment :=
  match register.find? (fun item => item.name == name) with
  | some item => .ok item
  | none => .error (.keyError name)

theorem mem_of_get_in_register {register : List Fragment} {name : String}
    {t : Fragment} (h : _get_in_register register name = .ok t) :
    t ∈ register ∧ t.name = name := by
  unfold _get_in_register at h
  cases hf : register.find? (fun item => item.name == name) with
  | none => rw [hf] at h; exact absurd h (by simp)
  | some item =>
    rw [hf] at h
    cases h
    exact ⟨List.mem_of_find?_eq_some hf,
      by have := List.find?_some hf; simpa using this⟩

/-- Merge a reference placeholder's local children into the referenced
register fragment (template.py lines 333-334): the referenced fragment's
own children come first, the placeholder's local children are appended
after them.  The extension is guarded by `if removed.get('children')`;
extending by an empty list is the identity, so the guard only matters
for the shape of the definition. -/
def mergeLocal (fragment : Fragment) (ch : List Fragment) : Fragment :=
  if ch.isEmpty then fragment
  else fragment.setChildren (fragment.children ++ ch)

theorem mergeLocal_eq (fragment : Fragment) (ch : List Fragment) :
    mergeLocal fragment ch = fragment.setChildren (fragment.children ++ ch) := by
  cases fragment with
  | mk n f p c ch0 =>
    cases ch with
    | nil => simp [mergeLocal, Fragment.setChildren, Fragment.children]
    | cons x xs => simp [mergeLocal]

@[simp] theorem name_mergeLocal (fragment : Fragment) (ch : List Fragment) :
    (mergeLocal fragment ch).name = fragment.name := by
  rw [mergeLocal_eq]; simp

@[simp] theorem children_mergeLocal (fragment : Fragment) (ch : List Fragment) :
    (mergeLocal fragment ch).children = fragment.children ++ ch := by
  rw [mergeLocal_eq]; simp

/-- `TemplateManager._resolve_template` (template.py lines 314-339),
as a transformation of a `children` list (the function only ever touches
`schema['children']`).  A child whose name carries the reference marker
is popped and replaced, at the same index, by the register fragment of
that (unstripped) name, with the child's own children appended after the
fragment's; the merged fragment is then resolved recursively.  A child
without the marker is resolved in place.  The Python recursion is
unbounded when the register is cyclic, hence the fuel parameter, spent
only when a reference is substituted. -/
def _resolve_template (register : List Fragment) :
    Nat → List Fragment → Except RErr (List Fragment)
  | _, [] => .ok []
  | fuel, .mk n f p c ch :: rest =>
    if n.data.contains '@' then
      match fuel with
      | 0 => .error .noFuel
      | fuel' + 1 =>
        match _get_in_register register n with
        | .error e => .error e
        | .ok fragment =>
          match _resolve_template register fuel' (mergeLocal fragment ch).children,
              _resolve_template register (fuel' + 1) rest with
          | .ok mch, .ok r => .ok ((mergeLocal fragment ch).setChildren mch :: r)
          | .error e, _ => .error e
          | _, .error e => .error e
    else
      match _resolve_template register fuel ch,
          _resolve_template register fuel rest with
      | .ok ch2, .ok r => .ok (.mk n f p c ch2 :: r)
      | .error e, _ => .error e
      | _, .error e => .error e
termination_by fuel l => (fuel, sizeOf l)
decreasing_by
  · apply Prod.Lex.left; omega
  · apply Prod.Lex.right; simp only [List.cons.sizeOf_spec]; omega
  · apply Prod.Lex.right; simp only [List.cons.sizeOf_spec, Fragment.mk.sizeOf_spec]; omega
  · apply Prod.Lex.right; simp only [List.cons.sizeOf_spec]; omega

@[simp] theorem _resolve_template_nil (register : List Fragment) (fuel : Nat) :
    _resolve_template register fuel [] = .ok [] := by
  cases fuel with
  | zero => simp only [_resolve_template]
  | succ fuel' => simp only [_resolve_template]

theorem _resolve_template_cons_noref (register : List Fragment) (fuel : Nat)
    (n : String) (f : Bool) (p : Option Nat) (c : String)
    (ch rest : List Fragment) (hat : ¬ n.data.contains '@' = true) :
    _resolve_template register fuel (.mk n f p c ch :: rest) =
      match _resolve_template register fuel ch,
          _resolve_template register fuel rest with
      | .ok ch2, .ok r => .ok (.mk n f p c ch2 :: r)
      | .error e, _ => .error e
      | _, .error e => .error e := by
  cases fuel with
  | zero => simp only [_resolve_template]; rw [if_neg hat]
  | succ fuel' => simp only [_resolve_template]; rw [if_neg hat]

theorem _resolve_template_cons_ref_zero (register : List Fragment)
    (n : String) (f : Bool) (p : Option Nat) (c : String)
    (ch rest : List Fragment) (hat : n.data.contains '@' = true) :
    _resolve_template register 0 (.mk n f p c ch :: rest) = .error .noFuel := by
  simp only [_resolve_template]; rw [if_pos hat]

theorem _resolve_template_cons_ref (register : List Fragment) (fuel' : Nat)
    (n : String) (f : Bool) (p : Option Nat) (c : String)
    (ch rest : List Fragment) (hat : n.data.contains '@' = true) :
    _resolve_template register (fuel' + 1) (.mk n f p c ch :: rest) =
      match _get_in_register register n with
      | .error e => .error e
      | .ok fragment =>
        match _resolve_template register fuel' (mergeLocal fragment ch).children,
            _resolve_template register (fuel' + 1) rest with
        | .ok mch, .ok r => .ok ((mergeLocal fragment ch).setChildren mch :: r)
        | .error e, _ => .error e
        | _, .error e => .error e := by
  simp only [_resolve_template]; rw [if_pos hat]

/-- `TemplateManager.resolve_template` (template.py lines 268-312):
fetch a copy of the named register fragment, expand its references in
place, then apply the canonical sort at every level. -/
def resolve_template (register : List Fragment) (fuel : Nat) (name : String) :
    Except RErr Fragment :=
  match _get_in_register register name with
  | .error e => .error e
  | .ok root =>
    match _resolve_template register fuel root.children with
    | .error e => .error e
    | .ok ch => .ok (sortChildren (root.setChildren ch))

/-- No node of any tree in the list carries the reference marker. -/
def noRefList : List Fragment → Bool
  | [] => true
  | .mk n _ _ _ ch :: rest => !n.data.contains '@' && noRefList ch && noRefList rest

/-- No node of the tree carries the reference marker in its name. -/
def noRef : Fragment → Bool
  | .mk n _ _ _ ch => !n.data.contains '@' && noRefList ch

/-! ### Flattening (`resolve` / `_resolve`) -/

/-- `name.replace(self.__reference_indicator, '')`
(template.py lines 177 and 218). -/
def stripRef (s : String) : String :=
  String.mk (s.data.filter (fun c => !(c == '@')))

/-- One flattened path entry (template.py lines 178-183 and 222-227):
`path` (segments from the root), `permission` (default `777` when the
node specifies none), `folder` (always present on register-built nodes),
`content`. -/
structure PathEntry where
  path : List String
  permission : Nat
  folder : Bool
  content : String

/-- `TemplateManager._resolve` (template.py lines 201-234): pre-order
walk appending one entry per node, the parent path extended with the
node's reference-stripped name. -/
def _resolve (path : List String) : List Fragment → List PathEntry
  | [] => []
  | .mk n f p c ch :: rest =>
    let name := stripRef n
    let current_path := path ++ [name]
    ⟨current_path, p.getD 777, f, c⟩ ::
      (_resolve current_path ch ++ _resolve path rest)

/-- `TemplateManager.resolve` (template.py lines 160-199): the root
entry followed by the pre-order entries of the descendants. -/
def resolve (schema : Fragment) : List PathEntry :=
  let root_name := stripRef schema.name
  ⟨[root_name], schema.permission.getD 777, schema.folder, schema.content⟩ ::
    _resolve [root_name] schema.children

@[simp] theorem allNodes_mk (n : String) (f : Bool) (p : Option Nat)
    (c : String) (ch : List Fragment) :
    allNodes (.mk n f p c ch) = .mk n f p c ch :: allNodesList ch := by
  rw [allNodes]

@[simp] theorem allNodesList_nil : allNodesList [] = [] := by rw [allNodesList]

@[simp] theorem allNodesList_cons (x : Fragment) (xs : List Fragment) :
    allNodesList (x :: xs) = allNodes x ++ allNodesList xs := by
  rw [allNodesList]

/-- Every node of every tree produced by a successful `_resolve_template`
whose name still carries the reference marker bears the name of a
register fragment (it is a substituted copy). -/
theorem marker_names (register : List Fragment) (fuel : Nat)
    (l l' : List Fragment) (h : _resolve_template register fuel l = .ok l') :
    ∀ x ∈ allNodesList l', x.name.data.contains '@' = true →
      ∃ r ∈ register, r.name = x.name := by
  induction fuel, l using _resolve_template.induct register generalizing l' with
  | case1 fuel =>
    simp only [_resolve_template] at h
    injection h with h2
    subst h2
    intro x hx
    simp at hx
  | case2 n f p c ch rest hat =>
    have hat2 : '@' ∈ n.data := by simpa using hat
    simp [_resolve_template, hat2] at h
  | case3 n f p c ch rest hat fuel' e hreg =>
    have hat2 : '@' ∈ n.data := by simpa using hat
    simp [_resolve_template, hat2, hreg] at h
  | case4 n f p c ch rest hat fuel' fragment hreg mch r hrest hmch ih2 ih1 =>
    simp only [_resolve_template, hreg, hrest, hmch] at h
    rw [if_pos hat] at h
    injection h with h2
    subst h2
    intro x hx hx'
    simp only [allNodesList_cons, List.mem_append] at hx
    rcases hx with hx | hx
    · cases hfrag : fragment with
      | mk fn ff fp fc fch =>
        rw [hfrag] at hx
        simp only [mergeLocal_eq, Fragment.setChildren, allNodes_mk,
          List.mem_cons] at hx
        rcases hx with rfl | hx
        · refine ⟨fragment, (mem_of_get_in_register hreg).1, ?_⟩
          rw [hfrag]; rfl
        · exact ih2 mch hmch x hx hx'
    · exact ih1 r hrest x hx hx'
  | case5 n f p c ch rest hat fuel' fragment hreg e hmch ih2 ih1 =>
    have hat2 : '@' ∈ n.data := by simpa using hat
    rw [children_mergeLocal] at hmch
    simp [_resolve_template, hat2, hreg, hmch] at h
  | case6 n f p c ch rest hat fuel' fragment hreg e hrest hnomch ih2 ih1 =>
    have hat2 : '@' ∈ n.data := by simpa using hat
    rcases hok : _resolve_template register fuel'
        (mergeLocal fragment ch).children with e2 | mch
    · exact absurd hok (fun hk => hnomch e2 hk)
    · rw [children_mergeLocal] at hok
      simp [_resolve_template, hat2, hreg, hrest, hok] at h
  | case7 fuel n f p c ch rest hat ch2 r hrest hch ih2 ih1 =>
    rw [_resolve_template_cons_noref register fuel n f p c ch rest hat,
      hch, hrest] at h
    injection h with h2
    subst h2
    intro x hx hx'
    simp only [allNodesList_cons, allNodes_mk, List.mem_cons,
      List.mem_append] at hx
    rcases hx with (rfl | hx) | hx
    · simp only [Fragment.name] at hx'
      rw [hx'] at hat
      exact absurd rfl hat
    · exact ih2 ch2 hch x hx hx'
    · exact ih1 r hrest x hx hx'
  | case8 fuel n f p c ch rest hat e hch ih2 ih1 =>
    rw [_resolve_template_cons_noref register fuel n f p c ch rest hat,
      hch] at h
    exact absurd h (by simp)
  | case9 fuel n f p c ch rest hat e hrest hnoch ih2 ih1 =>
    rcases hok : _resolve_template register fuel ch with e2 | ch2
    · exact absurd hok (fun hk => hnoch e2 hk)
    · rw [_resolve_template_cons_noref register fuel n f p c ch rest hat,
        hok, hrest] at h
      exact absurd h (by simp)

@[simp] theorem noRefList_nil : noRefList [] = true := by rw [noRefList]

theorem noRefList_cons (n : String) (f : Bool) (p : Option Nat) (c : String)
    (ch rest : List Fragment) :
    noRefList (.mk n f p c ch :: rest) =
      (!n.data.contains '@' && noRefList ch && noRefList rest) := by
  rw [noRefList]

/-- A children list without reference markers anywhere is left unchanged
by `_resolve_template` (only `'@'`-marked names trigger any rewriting),
regardless of the available fuel. -/
theorem _resolve_template_noRefList_aux (register : List Fragment) :
    ∀ (N : Nat) (l : List Fragment), sizeOf l ≤ N → noRefList l = true →
      ∀ fuel, _resolve_template register fuel l = .ok l := by
  intro N
  induction N with
  | zero =>
    intro l hsz
    cases l with
    | nil => intro _ fuel; simp
    | cons x xs =>
      exfalso
      have : 0 < sizeOf (x :: xs) := by
        simp only [List.cons.sizeOf_spec]; omega
      omega
  | succ N ih =>
    intro l hsz hnr fuel
    cases l with
    | nil => simp
    | cons x xs =>
      cases x with
      | mk n f p c ch =>
        rw [noRefList_cons] at hnr
        have h12 := Bool.and_eq_true_iff.mp hnr
        have h1b := (Bool.and_eq_true_iff.mp h12.1).1
        have h2 : noRefList ch = true := (Bool.and_eq_true_iff.mp h12.1).2
        have h3 : noRefList xs = true := h12.2
        have h1 : ¬ n.data.contains '@' = true := by
          intro hc
          rw [hc] at h1b
          exact absurd h1b (by decide)
        simp only [List.cons.sizeOf_spec, Fragment.mk.sizeOf_spec] at hsz
        rw [_resolve_template_cons_noref register fuel n f p c ch xs h1,
          ih ch (by omega) h2 fuel, ih xs (by omega) h3 fuel]

theorem _resolve_template_noRefList (register : List Fragment) (fuel : Nat)
    (l : List Fragment) (h : noRefList l = true) :
    _resolve_template register fuel l = .ok l :=
  _resolve_template_noRefList_aux register (sizeOf l) l le_rfl h fuel

/-- Decompose a successful `resolve_template` run into its three stages:
the register fetch, the in-place reference expansion, the canonical sort. -/
theorem resolve_template_ok {register : List Fragment} {fuel : Nat}
    {name : String} {t : Fragment}
    (h : resolve_template register fuel name = .ok t) :
    ∃ root ch, _get_in_register register name = .ok root ∧
      _resolve_template register fuel root.children = .ok ch ∧
      t = sortChildren (root.setChildren ch) := by
  unfold resolve_template at h
  cases hg : _get_in_register register name with
  | error e =>
    simp only [hg] at h
    exact absurd h (by simp)
  | ok root =>
    simp only [hg] at h
    cases hr : _resolve_template register fuel root.children with
    | error e =>
      simp only [hr] at h
      exact absurd h (by simp)
    | ok ch =>
      simp only [hr, Except.ok.injEq] at h
      exact ⟨root, ch, rfl, hr, h.symm⟩

/-- Introduction form of `_resolve_template` on a marker-free head:
given resolved children and tail, the head survives with equal fields. -/
theorem _resolve_template_cons_noref_ok (register : List Fragment)
    (fuel : Nat) (n : String) (f : Bool) (p : Option Nat) (c : String)
    (ch rest ch2 r : List Fragment)
    (hat : ¬ n.data.contains '@' = true)
    (hc : _resolve_template register fuel ch = .ok ch2)
    (hr : _resolve_template register fuel rest = .ok r) :
    _resolve_template register fuel (.mk n f p c ch :: rest) =
      .ok (.mk n f p c ch2 :: r) := by
  rw [_resolve_template_cons_noref _ _ _ _ _ _ _ _ hat, hc, hr]

/-- Introduction form of `_resolve_template` on a reference head: the
fetched fragment, merged with the local children and recursively
resolved, replaces the placeholder. -/
theorem _resolve_template_cons_ref_ok (register : List Fragment)
    (fuel' : Nat) (n : String) (f : Bool) (p : Option Nat) (c : String)
    (ch rest : List Fragment) (fragment : Fragment) (mch r : List Fragment)
    (hat : n.data.contains '@' = true)
    (hg : _get_in_register register n = .ok fragment)
    (hm : _resolve_template register fuel'
      (mergeLocal fragment ch).children = .ok mch)
    (hr : _resolve_template register (fuel' + 1) rest = .ok r) :
    _resolve_template register (fuel' + 1) (.mk n f p c ch :: rest) =
      .ok ((mergeLocal fragment ch).setChildren mch :: r) := by
  rw [_resolve_template_cons_ref _ _ _ _ _ _ _ _ hat, hg]
  dsimp only
  rw [hm, hr]

/-- Introduction form of `resolve_template`: fetch, expand, sort. -/
theorem resolve_template_eq_ok (register : List Fragment) (fuel : Nat)
    (name : String) (root : Fragment) (ch : List Fragment)
    (hg : _get_in_register register name = .ok root)
    (hr : _resolve_template register fuel root.children = .ok ch) :
    resolve_template register fuel name =
      .ok (sortChildren (root.setChildren ch)) := by
  unfold resolve_template
  rw [hg]
  dsimp only
  rw [hr]

/-- C1 (amended): in the tree returned by `resolve_template`, reference
markers are not fully absent — every node whose name still carries the
`'@'` marker is a copy of a registered fragment (the fetched root, or a
substituted reference, which keep their register names); no other node
carries the marker.  Markers are only stripped later, by the flattening
`resolve`. -/
theorem C1_markers_only_from_register (register : List Fragment)
    (fuel : Nat) (name : String) (t : Fragment)
    (h : resolve_template register fuel name = .ok t) :
    ∀ x ∈ allNodes t, x.name.data.contains '@' = true →
      ∃ r ∈ register, r.name = x.name := by
  obtain ⟨root, ch, hg, hr, rfl⟩ := resolve_template_ok h
  intro x hx hx'
  obtain ⟨y, hy, hxy⟩ :=
    allNodes_sortChildren_names (sizeOf (root.setChildren ch)) _ le_rfl x hx
  cases hroot : root with
  | mk rn rf rp rc rch =>
    rw [hroot] at hy
    simp only [Fragment.setChildren, allNodes_mk, List.mem_cons] at hy
    rcases hy with rfl | hy
    · refine ⟨root, (mem_of_get_in_register hg).1, ?_⟩
      rw [hroot, hxy]
      rfl
    · have hy2 : y.name.data.contains '@' = true := by rw [← hxy]; exact hx'
      obtain ⟨r, hrm, hrn⟩ := marker_names register fuel root.children ch hr y hy hy2
      exact ⟨r, hrm, by rw [hrn, hxy]⟩

/-- C1 counterexample: resolving the register fragment `top`, whose only
child references the registered fragment `@B@`, yields a tree in which the
substituted node keeps its marker-carrying register name `@B@` — the claim
that no node name carries `'@'` is false. -/
theorem C1_counterexample :
    resolve_template
      [Fragment.mk "top" true (some 511) ""
        [Fragment.mk "@B@" true (some 511) "" []],
       Fragment.mk "@B@" true (some 511) "" []] 1 "top" =
      .ok (Fragment.mk "top" true (some 511) ""
        [Fragment.mk "@B@" true (some 511) "" []]) ∧
    ((allNodes (Fragment.mk "top" true (some 511) ""
        [Fragment.mk "@B@" true (some 511) "" []])).any
      (fun x => x.name.data.contains '@')) = true := by
  constructor
  · have h1 : _resolve_template
        [Fragment.mk "top" true (some 511) ""
          [Fragment.mk "@B@" true (some 511) "" []],
         Fragment.mk "@B@" true (some 511) "" []] 1
        [Fragment.mk "@B@" true (some 511) "" []] =
        .ok [Fragment.mk "@B@" true (some 511) "" []] :=
      _resolve_template_cons_ref_ok _ 0 "@B@" true (some 511) "" [] []
        (Fragment.mk "@B@" true (some 511) "" []) [] []
        (by decide) rfl (_resolve_template_nil _ _) (_resolve_template_nil _ _)
    have h2 := resolve_template_eq_ok
      [Fragment.mk "top" true (some 511) ""
        [Fragment.mk "@B@" true (some 511) "" []],
       Fragment.mk "@B@" true (some 511) "" []] 1 "top"
      (Fragment.mk "top" true (some 511) ""
        [Fragment.mk "@B@" true (some 511) "" []])
      [Fragment.mk "@B@" true (some 511) "" []] rfl h1
    rw [h2]
    dsimp only [Fragment.setChildren]
    rw [sortChildren_single, sortChildren_leaf]
  · rw [allNodes_mk, allNodesList_cons, allNodes_mk, allNodesList_nil]
    decide

/-- C1 witness: applying the amended theorem at the concrete register,
the marker-carrying node `@B@` of the output bears a register name. -/
theorem C1_witness :
    ∃ r ∈ [Fragment.mk "top" true (some 511) ""
        [Fragment.mk "@B@" true (some 511) "" []],
       Fragment.mk "@B@" true (some 511) "" []],
      r.name = (Fragment.mk "@B@" true (some 511) "" []).name :=
  C1_markers_only_from_register
    [Fragment.mk "top" true (some 511) ""
        [Fragment.mk "@B@" true (some 511) "" []],
     Fragment.mk "@B@" true (some 511) "" []] 1 "top"
    (Fragment.mk "top" true (some 511) ""
        [Fragment.mk "@B@" true (some 511) "" []])
    (by
      have h1 : _resolve_template
          [Fragment.mk "top" true (some 511) ""
            [Fragment.mk "@B@" true (some 511) "" []],
           Fragment.mk "@B@" true (some 511) "" []] 1
          [Fragment.mk "@B@" true (some 511) "" []] =
          .ok [Fragment.mk "@B@" true (some 511) "" []] :=
        _resolve_template_cons_ref_ok _ 0 "@B@" true (some 511) "" [] []
          (Fragment.mk "@B@" true (some 511) "" []) [] []
          (by decide) rfl (_resolve_template_nil _ _) (_resolve_template_nil _ _)
      have h2 := resolve_template_eq_ok
        [Fragment.mk "top" true (some 511) ""
          [Fragment.mk "@B@" true (some 511) "" []],
         Fragment.mk "@B@" true (some 511) "" []] 1 "top"
        (Fragment.mk "top" true (some 511) ""
          [Fragment.mk "@B@" true (some 511) "" []])
        [Fragment.mk "@B@" true (some 511) "" []] rfl h1
      rw [h2]
      dsimp only [Fragment.setChildren]
      rw [sortChildren_single, sortChildren_leaf])
    (Fragment.mk "@B@" true (some 511) "" [])
    (by simp [allNodes_mk])
    (by decide)

/-- C3: after `resolve_template` completes, every sibling list of the
returned tree, at every level, is sorted with primary key "is a folder"
(folders before files) and secondary key the name with `'@'`/`'+'`
markers stripped, compared case-insensitively. -/
theorem C3_canonical_sort (register : List Fragment) (fuel : Nat)
    (name : String) (t : Fragment)
    (h : resolve_template register fuel name = .ok t) : AllSorted t := by
  obtain ⟨root, ch, _, _, rfl⟩ := resolve_template_ok h
  exact allSorted_sortChildren _

/-- C3 witness: resolving a register whose children are listed out of
order (a file before a folder) yields the canonically sorted tree, and
the theorem applies to it. -/
theorem C3_witness :
    AllSorted (Fragment.mk "top" true (some 511) ""
      [Fragment.mk "A" true (some 511) "" [],
       Fragment.mk "b.txt" false (some 438) "x" []]) :=
  C3_canonical_sort
    [Fragment.mk "top" true (some 511) ""
      [Fragment.mk "b.txt" false (some 438) "x" [],
       Fragment.mk "A" true (some 511) "" []]] 1 "top"
    (Fragment.mk "top" true (some 511) ""
      [Fragment.mk "A" true (some 511) "" [],
       Fragment.mk "b.txt" false (some 438) "x" []])
    (by
      have h1 : _resolve_template
          [Fragment.mk "top" true (some 511) ""
            [Fragment.mk "b.txt" false (some 438) "x" [],
             Fragment.mk "A" true (some 511) "" []]] 1
          [Fragment.mk "b.txt" false (some 438) "x" [],
           Fragment.mk "A" true (some 511) "" []] =
          .ok [Fragment.mk "b.txt" false (some 438) "x" [],
           Fragment.mk "A" true (some 511) "" []] :=
        _resolve_template_noRefList _ 1 _ (by simp +decide [noRefList_cons])
      have h2 := resolve_template_eq_ok
        [Fragment.mk "top" true (some 511) ""
          [Fragment.mk "b.txt" false (some 438) "x" [],
           Fragment.mk "A" true (some 511) "" []]] 1 "top"
        (Fragment.mk "top" true (some 511) ""
          [Fragment.mk "b.txt" false (some 438) "x" [],
           Fragment.mk "A" true (some 511) "" []])
        [Fragment.mk "b.txt" false (some 438) "x" [],
         Fragment.mk "A" true (some 511) "" []] rfl h1
      rw [h2]
      dsimp only [Fragment.setChildren]
      rw [sortChildren_pair, if_neg (by decide), sortChildren_leaf,
        sortChildren_leaf])

theorem noRefList_eq_noRef_cons (x : Fragment) (l : List Fragment) :
    noRefList (x :: l) = (noRef x && noRefList l) := by
  cases x with
  | mk n f p c ch => rw [noRefList_cons, noRef]

/-- A successful `_resolve_template` run on a non-empty list resolves the
head to a single tree and the tail separately, in order. -/
theorem _resolve_template_cons_ok (register : List Fragment) (fuel : Nat)
    (y : Fragment) (tail : List Fragment) (out : List Fragment)
    (h : _resolve_template register fuel (y :: tail) = .ok out) :
    ∃ y2 out2, out = y2 :: out2 ∧
      _resolve_template register fuel tail = .ok out2 := by
  cases y with
  | mk n f p c ch =>
    by_cases hat : n.data.contains '@' = true
    · cases fuel with
      | zero =>
        rw [_resolve_template_cons_ref_zero _ _ _ _ _ _ _ hat] at h
        exact absurd h (by simp)
      | succ fuel' =>
        rw [_resolve_template_cons_ref _ _ _ _ _ _ _ _ hat] at h
        cases hg : _get_in_register register n with
        | error e =>
          simp only [hg] at h
          exact absurd h (by simp)
        | ok fragment =>
          simp only [hg] at h
          cases hm : _resolve_template register fuel'
              (mergeLocal fragment ch).children with
          | error e =>
            simp only [hm] at h
            exact absurd h (by simp)
          | ok mch =>
            simp only [hm] at h
            cases hr : _resolve_template register (fuel' + 1) tail with
            | error e =>
              simp only [hr] at h
              exact absurd h (by simp)
            | ok r =>
              simp only [hr, Except.ok.injEq] at h
              exact ⟨_, r, h.symm, rfl⟩
    · rw [_resolve_template_cons_noref _ _ _ _ _ _ _ _ hat] at h
      cases hc : _resolve_template register fuel ch with
      | error e =>
        simp only [hc] at h
        exact absurd h (by simp)
      | ok ch2 =>
        simp only [hc] at h
        cases hr : _resolve_template register fuel tail with
        | error e =>
          simp only [hr] at h
          exact absurd h (by simp)
        | ok r =>
          simp only [hr, Except.ok.injEq] at h
          exact ⟨_, r, h.symm, rfl⟩

/-- C4: during reference expansion (`_resolve_template`, before any
canonical sort), a placeholder child carrying local children `[X]` that
references a registered fragment with children `[A, B]` is replaced, at
the same position of the parent's children list, by the referenced
fragment with children `[A, B, X]` — the referenced fragment's children
first, then the placeholder's local children appended. -/
theorem C4_merge_semantics (register : List Fragment) (fuel : Nat)
    (pre rest : List Fragment) (pn : String) (pf : Bool) (pp : Option Nat)
    (pc : String) (fn : String) (ff : Bool) (fp : Option Nat) (fc : String)
    (A B X : Fragment) (out : List Fragment)
    (hat : pn.data.contains '@' = true)
    (hreg : _get_in_register register pn = .ok (.mk fn ff fp fc [A, B]))
    (hA : noRef A = true) (hB : noRef B = true) (hX : noRef X = true)
    (hout : _resolve_template register (fuel + 1)
      (pre ++ .mk pn pf pp pc [X] :: rest) = .ok out) :
    ∃ pre2 rest2, out = pre2 ++ .mk fn ff fp fc [A, B, X] :: rest2 ∧
      pre2.length = pre.length ∧
      _resolve_template register (fuel + 1) rest = .ok rest2 := by
  induction pre generalizing out with
  | nil =>
    simp only [List.nil_append] at hout
    rw [_resolve_template_cons_ref _ _ _ _ _ _ _ _ hat] at hout
    simp only [hreg] at hout
    have hml : mergeLocal (Fragment.mk fn ff fp fc [A, B]) [X] =
        Fragment.mk fn ff fp fc [A, B, X] := by
      rw [mergeLocal_eq]; rfl
    rw [hml] at hout
    have hnr : noRefList [A, B, X] = true := by
      simp [noRefList_eq_noRef_cons, hA, hB, hX]
    simp only [Fragment.children] at hout
    rw [_resolve_template_noRefList register fuel [A, B, X] hnr] at hout
    cases hrest : _resolve_template register (fuel + 1) rest with
    | error e =>
      simp only [hrest] at hout
      exact absurd hout (by simp)
    | ok rest2 =>
      simp only [hrest, Except.ok.injEq] at hout
      refine ⟨[], rest2, ?_, rfl, rfl⟩
      rw [← hout]
      simp [Fragment.setChildren]
  | cons y pre ih =>
    rw [List.cons_append] at hout
    rcases _resolve_template_cons_ok register (fuel + 1) y
        (pre ++ Fragment.mk pn pf pp pc [X] :: rest) out hout with
      ⟨y2, out2, rfl, htail⟩
    rcases ih out2 htail with ⟨pre2, rest2, heq, hlen, hrest⟩
    refine ⟨y2 :: pre2, rest2, ?_, ?_, hrest⟩
    · rw [heq, List.cons_append]
    · simp [hlen]

/-- C4 witness: in a concrete register, a placeholder `@F@` with local
child `X` is replaced by the registered fragment `@F@` with children
`[A, B, X]`. -/
theorem C4_witness :
    ∃ pre2 rest2,
      [Fragment.mk "@F@" true (some 511) ""
         [Fragment.mk "A" true (some 511) "" [],
          Fragment.mk "B" false (some 438) "y" [],
          Fragment.mk "X" true (some 511) "" []]] =
        pre2 ++ Fragment.mk "@F@" true (some 511) ""
          [Fragment.mk "A" true (some 511) "" [],
           Fragment.mk "B" false (some 438) "y" [],
           Fragment.mk "X" true (some 511) "" []] :: rest2 ∧
      pre2.length = ([] : List Fragment).length ∧
      _resolve_template
        [Fragment.mk "@F@" true (some 511) ""
          [Fragment.mk "A" true (some 511) "" [],
           Fragment.mk "B" false (some 438) "y" []]] 1
        [] = .ok rest2 :=
  C4_merge_semantics
    [Fragment.mk "@F@" true (some 511) ""
      [Fragment.mk "A" true (some 511) "" [],
       Fragment.mk "B" false (some 438) "y" []]] 0
    [] []
    "@F@" true (some 511) "" "@F@" true (some 511) ""
    (Fragment.mk "A" true (some 511) "" [])
    (Fragment.mk "B" false (some 438) "y" [])
    (Fragment.mk "X" true (some 511) "" [])
    [Fragment.mk "@F@" true (some 511) ""
       [Fragment.mk "A" true (some 511) "" [],
        Fragment.mk "B" false (some 438) "y" [],
        Fragment.mk "X" true (some 511) "" []]]
    (by decide)
    rfl
    (by simp +decide [noRef])
    (by simp +decide [noRef])
    (by simp +decide [noRef])
    (_resolve_template_cons_ref_ok
      [Fragment.mk "@F@" true (some 511) ""
        [Fragment.mk "A" true (some 511) "" [],
         Fragment.mk "B" false (some 438) "y" []]] 0
      "@F@" true (some 511) ""
      [Fragment.mk "X" true (some 511) "" []] []
      (Fragment.mk "@F@" true (some 511) ""
        [Fragment.mk "A" true (some 511) "" [],
         Fragment.mk "B" false (some 438) "y" []])
      [Fragment.mk "A" true (some 511) "" [],
       Fragment.mk "B" false (some 438) "y" [],
       Fragment.mk "X" true (some 511) "" []] []
      (by decide)
      rfl
      (_resolve_template_noRefList _ 0
        [Fragment.mk "A" true (some 511) "" [],
         Fragment.mk "B" false (some 438) "y" [],
         Fragment.mk "X" true (some 511) "" []]
        (by simp +decide [noRefList_cons]))
      (_resolve_template_nil _ _))

@[simp] theorem _resolve_nil (path : List String) : _resolve path [] = [] := by
  rw [_resolve]

theorem _resolve_cons (path : List String) (n : String) (f : Bool)
    (p : Option Nat) (c : String) (ch rest : List Fragment) :
    _resolve path (.mk n f p c ch :: rest) =
      ⟨path ++ [stripRef n], p.getD 777, f, c⟩ ::
        (_resolve (path ++ [stripRef n]) ch ++ _resolve path rest) := by
  rw [_resolve]

/-- C8: a fragment node that does not specify a permission is flattened
by `resolve` with permission `777` — the decimal number 777 (octal
0o1411), not the octal 0o777 = 511 the specification states: the Python
default `entry.get('permission', 777)` (template.py lines 180 and 224)
is a decimal literal. -/
theorem C8_default_permission :
    resolve (Fragment.mk "a" true none "" []) =
      [⟨["a"], 777, true, ""⟩] ∧ (777 : Nat) ≠ 0o777 := by
  constructor
  · unfold resolve
    dsimp only [Fragment.name, Fragment.children, Fragment.permission,
      Fragment.folder, Fragment.content]
    rw [_resolve_nil]
    rfl
  · decide

/-! ### Materialization (`FileSystemManager._to_path`, filesystem.py
lines 136-166) -/

/-- Python `str.split` with a single-character separator. -/
def splitOnChar (sep : Char) : List Char → List (List Char)
  | [] => [[]]
  | c :: rest =>
    match splitOnChar sep rest with
    | [] => [[]]
    | h :: t => if c = sep then [] :: h :: t else (c :: h) :: t

/-- `item.split('+')[1]` (filesystem.py lines 123-124 and 146): the chunk
between the first and the second `'+'`.  When `'+'` occurs in the string
the split has at least two chunks, so the fallback is unreachable in the
guarded uses. -/
def varName (s : String) : List Char :=
  match splitOnChar '+' s.data with
  | _ :: nm :: _ => nm
  | _ => []

/-- Lines 144-148 of `_to_path`: a segment containing `'+'` becomes the
format field `'{name}'` (`item = '{%s}' % item`), any other segment
passes through. -/
def templateSeg (s : String) : List Char :=
  if s.data.contains '+' then '{' :: varName s ++ ['}'] else s.data

/-- `(os.sep).join(...)` with the POSIX separator. -/
def joinSep : List (List Char) → List Char
  | [] => []
  | [s] => s
  | s :: rest => s ++ '/' :: joinSep rest

/-- Keyword lookup in the build `data` mapping (`**data` expansion). -/
def lookupData (data : List (String × String)) (k : String) : Option String :=
  (data.find? (fun kv => kv.1 == k)).map (fun kv => kv.2)

mutual

/-- `final_path.format(**data)` (filesystem.py line 153), for the format
strings this engine produces: a `'{name}'` field is substituted with
`data[name]` (`KeyError` - that is, `none` - when the name is absent),
`'{{'` and `'}}'` escape literal braces, a stray closing brace or an
unclosed field is a `ValueError` (`none`), and substituted values are
not re-scanned (single pass, as in Python).  The bare
`except Exception` of `_to_path` treats every failure alike, so all
failure modes collapse to `none`. -/
def pyFormatGo (data : List (String × String)) : List Char → Option (List Char)
  | [] => some []
  | '{' :: '{' :: rest => (pyFormatGo data rest).map (fun t => '{' :: t)
  | '{' :: rest => pyFormatField data [] rest
  | '}' :: '}' :: rest => (pyFormatGo data rest).map (fun t => '}' :: t)
  | '}' :: _ => none
  | c :: rest => (pyFormatGo data rest).map (fun t => c :: t)

/-- Scan a format field up to the closing brace, accumulating the name
in reverse; at the brace, substitute the data value. -/
def pyFormatField (data : List (String × String)) (acc : List Char) :
    List Char → Option (List Char)
  | [] => none
  | c :: rest =>
    if c = '}' then
      match lookupData data (String.mk acc.reverse) with
      | none => none
      | some v => (pyFormatGo data rest).map (fun t => v.data ++ t)
    else pyFormatField data (c :: acc) rest

end

/-- A materialized entry: the entry dict after `entry['path']` was
overwritten with the substituted concrete path string
(filesystem.py line 163). -/
structure BuiltEntry where
  path : String
  permission : Nat
  folder : Bool
  content : String

/-- The after-state of one input entry of `_to_path`: either untouched
(the entry was skipped; its `path` is still the segment list) or kept
(its `path` field now holds the concrete string). -/
inductive EntryAfter where
  | untouched (e : PathEntry)
  | kept (b : BuiltEntry)

/-- `result_path not in result_paths` (filesystem.py line 150) compares
the templated segment list against the entry dicts accumulated in
`result_paths`; in Python 2 a list never compares equal to a dict, so
the membership test is constantly false and the intended duplicate
suppression never fires. -/
def entryEqSegList (_b : BuiltEntry) (_l : List (List Char)) : Bool := false

/-- The loop of `FileSystemManager._to_path` (filesystem.py lines
141-164).  The in-place mutation of the caller's entries is modelled by
returning, besides the accumulated `result_paths`, the after-state of
every input entry. -/
def _to_path_loop (data : List (String × String)) :
    List PathEntry → List BuiltEntry → List EntryAfter × List BuiltEntry
  | [], res => ([], res)
  | e :: rest, res =>
    let result_path := e.path.map templateSeg
    if res.any (fun r => entryEqSegList r result_path) then
      let pr := _to_path_loop data rest res
      (.untouched e :: pr.1, pr.2)
    else
      match pyFormatGo data (joinSep result_path) with
      | none =>
        let pr := _to_path_loop data rest res
        (.untouched e :: pr.1, pr.2)
      | some fp =>
        let b : BuiltEntry := ⟨String.mk fp, e.permission, e.folder, e.content⟩
        let pr := _to_path_loop data rest (res ++ [b])
        (.kept b :: pr.1, pr.2)

/-- `FileSystemManager._to_path`: the returned `result_paths` list. -/
def _to_path (paths : List PathEntry) (data : List (String × String)) :
    List BuiltEntry :=
  (_to_path_loop data paths []).2

/-- The after-state of `_to_path`'s input entries (the mutation the
call leaves behind in the caller's flattened list). -/
def _to_path_after (paths : List PathEntry) (data : List (String × String)) :
    List EntryAfter :=
  (_to_path_loop data paths []).1

/-- The kept component of an after-state entry. -/
def keptOf : EntryAfter → Option BuiltEntry
  | .kept b => some b
  | .untouched _ => none

/-- C5: `_to_path` does not suppress duplicates.  Two entries with the
same path produce the same concrete path string twice: the membership
test meant to deduplicate compares the templated segment list against
the entry dicts already collected, which is always false in Python 2,
so every formattable entry is kept. -/
theorem C5_no_dedup :
    _to_path [⟨["a"], 511, true, ""⟩, ⟨["a"], 511, true, ""⟩] [] =
      [⟨"a", 511, true, ""⟩, ⟨"a", 511, true, ""⟩] := rfl

theorem any_entryEqSegList (res : List BuiltEntry) (l : List (List Char)) :
    res.any (fun r => entryEqSegList r l) = false := by
  simp [entryEqSegList]

theorem _to_path_loop_cons_none (data : List (String × String))
    (e : PathEntry) (rest : List PathEntry) (res : List BuiltEntry)
    (h : pyFormatGo data (joinSep (e.path.map templateSeg)) = none) :
    _to_path_loop data (e :: rest) res =
      (.untouched e :: (_to_path_loop data rest res).1,
       (_to_path_loop data rest res).2) := by
  rw [_to_path_loop]
  simp only [any_entryEqSegList, Bool.false_eq_true, if_false, h]

theorem _to_path_loop_cons_some (data : List (String × String))
    (e : PathEntry) (rest : List PathEntry) (res : List BuiltEntry)
    (fp : List Char)
    (h : pyFormatGo data (joinSep (e.path.map templateSeg)) = some fp) :
    _to_path_loop data (e :: rest) res =
      (.kept ⟨String.mk fp, e.permission, e.folder, e.content⟩ ::
        (_to_path_loop data rest
          (res ++ [⟨String.mk fp, e.permission, e.folder, e.content⟩])).1,
       (_to_path_loop data rest
          (res ++ [⟨String.mk fp, e.permission, e.folder, e.content⟩])).2) := by
  rw [_to_path_loop]
  simp only [any_entryEqSegList, Bool.false_eq_true, if_false, h]

/-- The `result_paths` accumulator only collects the kept entries of the
after-state, in order. -/
theorem _to_path_loop_snd (data : List (String × String)) :
    ∀ (entries : List PathEntry) (res : List BuiltEntry),
      (_to_path_loop data entries res).2 =
        res ++ ((_to_path_loop data entries res).1.filterMap keptOf) := by
  intro entries
  induction entries with
  | nil => intro res; simp [_to_path_loop]
  | cons e rest ih =>
    intro res
    cases h : pyFormatGo data (joinSep (e.path.map templateSeg)) with
    | none =>
      rw [_to_path_loop_cons_none data e rest res h]
      simp only [List.filterMap_cons, keptOf]
      exact ih res
    | some fp =>
      rw [_to_path_loop_cons_some data e rest res fp h]
      simp only [List.filterMap_cons, keptOf]
      rw [ih]
      simp

/-- Pointwise account of the mutation: every input entry is either left
untouched (when its format fails) or overwritten with the substituted
concrete path string, keeping its other fields. -/
theorem _to_path_loop_forall2 (data : List (String × String)) :
    ∀ (entries : List PathEntry) (res : List BuiltEntry),
      List.Forall₂ (fun a e =>
        (a = EntryAfter.untouched e ∧
          pyFormatGo data (joinSep (e.path.map templateSeg)) = none) ∨
        ∃ fp, pyFormatGo data (joinSep (e.path.map templateSeg)) = some fp ∧
          a = EntryAfter.kept ⟨String.mk fp, e.permission, e.folder, e.content⟩)
        (_to_path_loop data entries res).1 entries := by
  intro entries
  induction entries with
  | nil => intro res; simp [_to_path_loop]
  | cons e rest ih =>
    intro res
    cases h : pyFormatGo data (joinSep (e.path.map templateSeg)) with
    | none =>
      rw [_to_path_loop_cons_none data e rest res h]
      exact List.Forall₂.cons (Or.inl ⟨rfl, h⟩) (ih res)
    | some fp =>
      rw [_to_path_loop_cons_some data e rest res fp h]
      exact List.Forall₂.cons (Or.inr ⟨fp, h, rfl⟩)
        (ih (res ++ [⟨String.mk fp, e.permission, e.folder, e.content⟩]))

/-- C10: `_to_path` mutates its input in place.  In the after-state of
the input list, each kept entry's `path` field holds the substituted
concrete path string instead of the segment list (other fields
unchanged), skipped entries are untouched, and the returned list is
exactly the kept (mutated) entries of the input, in order — so the
caller's flattened list is no longer a segment-list representation. -/
theorem C10_in_place_mutation (entries : List PathEntry)
    (data : List (String × String)) :
    _to_path entries data = (_to_path_after entries data).filterMap keptOf ∧
    List.Forall₂ (fun a e =>
      (a = EntryAfter.untouched e ∧
        pyFormatGo data (joinSep (e.path.map templateSeg)) = none) ∨
      ∃ fp, pyFormatGo data (joinSep (e.path.map templateSeg)) = some fp ∧
        a = EntryAfter.kept ⟨String.mk fp, e.permission, e.folder, e.content⟩)
      (_to_path_after entries data) entries := by
  constructor
  · have h := _to_path_loop_snd data entries []
    unfold _to_path _to_path_after
    simpa using h
  · exact _to_path_loop_forall2 data entries []

/-! ### Missing-key analysis of materialization (for C6) -/

/-- The variable names a path entry's segments require from the build
data: the middle chunk of every `'+'`-carrying segment. -/
def requiredKeys (e : PathEntry) : List String :=
  (e.path.filter (fun s => s.data.contains '+')).map
    (fun s => String.mk (varName s))

/-- All keys required by the entry are present in the data mapping. -/
def keysPresent (data : List (String × String)) (e : PathEntry) : Bool :=
  (requiredKeys e).all (fun k => (lookupData data k).isSome)

/-- One segment's key is present (trivially true for literal segments). -/
def segKeyPresent (data : List (String × String)) (s : String) : Bool :=
  !s.data.contains '+' || (lookupData data (String.mk (varName s))).isSome

/-- The substituted form of one segment. -/
def substSeg (data : List (String × String)) (s : String) : List Char :=
  if s.data.contains '+' then
    ((lookupData data (String.mk (varName s))).getD "").data
  else s.data

/-- The materialized entry `_to_path` produces for a kept input entry. -/
def builtOf (data : List (String × String)) (e : PathEntry) : BuiltEntry :=
  ⟨String.mk (joinSep (e.path.map (substSeg data))),
    e.permission, e.folder, e.content⟩

/-- No brace characters (segments the single-pass format treats
literally). -/
def braceFree (l : List Char) : Bool :=
  !l.contains '{' && !l.contains '}'

/-- A segment the engine's format handling is exact for: a variable
segment whose name is brace-free, or a brace-free literal segment. -/
def plainSeg (s : String) : Bool :=
  if s.data.contains '+' then braceFree (varName s) else braceFree s.data

/-- Every segment of the entry's path is plain. -/
def plainEntry (e : PathEntry) : Bool := e.path.all plainSeg

theorem pyFormatField_cons (data : List (String × String)) (acc : List Char)
    (c : Char) (rest : List Char) :
    pyFormatField data acc (c :: rest) =
      if c = '}' then
        match lookupData data (String.mk acc.reverse) with
        | none => none
        | some v => (pyFormatGo data rest).map (fun t => v.data ++ t)
      else pyFormatField data (c :: acc) rest := by
  rw [pyFormatField]

theorem pyFormatGo_other (data : List (String × String)) (c : Char)
    (rest : List Char) (hc1 : ¬ c = '{') (hc2 : ¬ c = '}') :
    pyFormatGo data (c :: rest) = (pyFormatGo data rest).map (fun t => c :: t) := by
  simp [pyFormatGo, hc1, hc2]

theorem pyFormatGo_open_cons (data : List (String × String)) (c2 : Char)
    (rest2 : List Char) (h : ¬ c2 = '{') :
    pyFormatGo data ('{' :: c2 :: rest2) = pyFormatField data [] (c2 :: rest2) := by
  simp [pyFormatGo, h]

theorem pyFormatField_scan (data : List (String × String)) :
    ∀ (nm : List Char), nm.all (fun c => !(c == '}')) = true →
    ∀ (acc r : List Char),
      pyFormatField data acc (nm ++ '}' :: r) =
        match lookupData data (String.mk (acc.reverse ++ nm)) with
        | none => none
        | some v => (pyFormatGo data r).map (fun t => v.data ++ t) := by
  intro nm
  induction nm with
  | nil =>
    intro _ acc r
    rw [List.nil_append, pyFormatField_cons, if_pos rfl, List.append_nil]
  | cons c nm2 ih =>
    intro h acc r
    simp only [List.all_cons, Bool.and_eq_true, Bool.not_eq_eq_eq_not,
      Bool.not_true, beq_eq_false_iff_ne, ne_eq] at h
    rw [List.cons_append, pyFormatField_cons, if_neg h.1,
      ih (by simp [h.2]) (c :: acc) r]
    simp [List.append_assoc]

theorem ne_of_beq_false {a c : Char} (h : (a == c) = false) : ¬ c = a :=
  fun he => by rw [he] at h; simp at h

theorem braceFree_iff (l : List Char) :
    braceFree l = true ↔ (l.contains '{' = false ∧ l.contains '}' = false) := by
  simp [braceFree]

theorem all_ne_of_contains_eq_false (l : List Char) (a : Char)
    (h : l.contains a = false) : l.all (fun c => !(c == a)) = true := by
  induction l with
  | nil => rfl
  | cons c l2 ih =>
    simp only [List.contains_cons, Bool.or_eq_false_iff] at h
    simp only [List.all_cons, Bool.and_eq_true]
    exact ⟨by simp [ne_of_beq_false h.1], ih h.2⟩

theorem pyFormatGo_field (data : List (String × String)) (nm : List Char)
    (r : List Char) (h : braceFree nm = true) :
    pyFormatGo data ('{' :: (nm ++ '}' :: r)) =
      match lookupData data (String.mk nm) with
      | none => none
      | some v => (pyFormatGo data r).map (fun t => v.data ++ t) := by
  have hparts := (braceFree_iff nm).mp h
  have hall : nm.all (fun c => !(c == '}')) = true :=
    all_ne_of_contains_eq_false nm '}' hparts.2
  cases nm with
  | nil => rfl
  | cons c nm2 =>
    have hcontains := hparts.1
    simp only [List.contains_cons, Bool.or_eq_false_iff] at hcontains
    have hc : ¬ c = '{' := ne_of_beq_false hcontains.1
    rw [List.cons_append, pyFormatGo_open_cons data c _ hc]
    have hscan := pyFormatField_scan data (c :: nm2) hall [] r
    rw [List.cons_append] at hscan
    simpa using hscan

theorem pyFormatGo_lit (data : List (String × String)) :
    ∀ (l : List Char), braceFree l = true →
    ∀ (r : List Char),
      pyFormatGo data (l ++ r) = (pyFormatGo data r).map (fun t => l ++ t) := by
  intro l
  induction l with
  | nil =>
    intro _ r
    rw [List.nil_append]
    cases pyFormatGo data r <;> simp
  | cons c l2 ih =>
    intro h r
    have hparts := (braceFree_iff (c :: l2)).mp h
    simp only [List.contains_cons, Bool.or_eq_false_iff] at hparts
    have hc1 : ¬ c = '{' := ne_of_beq_false hparts.1.1
    have hc2 : ¬ c = '}' := ne_of_beq_false hparts.2.1
    have hl2 : braceFree l2 = true :=
      (braceFree_iff l2).mpr ⟨hparts.1.2, hparts.2.2⟩
    rw [List.cons_append, pyFormatGo_other data c _ hc1 hc2, ih hl2 r]
    cases pyFormatGo data r <;> simp

theorem joinSep_single (x : List Char) : joinSep [x] = x := rfl

theorem joinSep_cons2 (x y : List Char) (rest : List (List Char)) :
    joinSep (x :: y :: rest) = x ++ '/' :: joinSep (y :: rest) := rfl

theorem joinSep_cons_of_ne_nil (x : List Char) (l : List (List Char))
    (h : l ≠ []) : joinSep (x :: l) = x ++ '/' :: joinSep l := by
  cases l with
  | nil => exact absurd rfl h
  | cons y rest => rfl

/-- Formatting one templated segment followed by a remainder: a variable
segment substitutes its data value (failing when the key is absent), a
plain literal passes through. -/
theorem pyFormatGo_seg (data : List (String × String)) (s : String)
    (r : List Char) (hs : plainSeg s = true) :
    pyFormatGo data (templateSeg s ++ r) =
      if segKeyPresent data s then
        (pyFormatGo data r).map (fun t => substSeg data s ++ t)
      else none := by
  by_cases hv : s.data.contains '+' = true
  · have hv2 : '+' ∈ s.data := by simpa using hv
    have hnm : braceFree (varName s) = true := by
      rw [plainSeg, if_pos hv] at hs; exact hs
    rw [templateSeg, if_pos hv]
    have hsh : ('{' :: varName s ++ ['}']) ++ r =
        '{' :: (varName s ++ '}' :: r) := by simp
    rw [hsh, pyFormatGo_field data _ r hnm]
    cases hl : lookupData data (String.mk (varName s)) with
    | none => simp [segKeyPresent, hv, hl, hv2]
    | some v => simp [segKeyPresent, hv, hl, hv2, substSeg]
  · have hv2 : ¬ '+' ∈ s.data := by simpa using hv
    rw [templateSeg, if_neg hv]
    have hbf : braceFree s.data = true := by
      rw [plainSeg, if_neg hv] at hs; exact hs
    rw [pyFormatGo_lit data s.data hbf r]
    have hkp : segKeyPresent data s = true := by
      simp only [segKeyPresent, Bool.or_eq_true, Bool.not_eq_true']
      exact Or.inl (Bool.eq_false_iff.mpr hv)
    rw [if_pos hkp]
    simp [substSeg, hv2]

/-- Formatting the joined templated path: succeeds exactly when every
variable segment's key is present, and then yields the joined
substituted segments (single-pass, no re-scanning of values). -/
theorem pyFormat_segs (data : List (String × String)) :
    ∀ (segs : List String), segs.all plainSeg = true →
      pyFormatGo data (joinSep (segs.map templateSeg)) =
        if segs.all (segKeyPresent data) then
          some (joinSep (segs.map (substSeg data)))
        else none := by
  intro segs
  induction segs with
  | nil => intro _; rfl
  | cons s rest ih =>
    intro h
    simp only [List.all_cons, Bool.and_eq_true] at h
    cases rest with
    | nil =>
      have hseg := pyFormatGo_seg data s [] h.1
      rw [List.append_nil] at hseg
      rw [List.map_cons, List.map_nil, joinSep_single, hseg]
      by_cases hk : segKeyPresent data s = true
      · simp [hk, pyFormatGo, joinSep_single]
      · simp [Bool.eq_false_iff.mpr hk]
    | cons s2 rest2 =>
      rw [List.map_cons, joinSep_cons_of_ne_nil _ _ (by simp),
        pyFormatGo_seg data s _ h.1]
      by_cases hk : segKeyPresent data s = true
      · rw [if_pos hk, pyFormatGo_other data '/' _ (by decide) (by decide),
          ih h.2]
        by_cases hall : (s2 :: rest2).all (segKeyPresent data) = true
        · rw [if_pos hall]
          simp [List.all_cons, hk, hall, joinSep_cons2]
        · have hf : (s2 :: rest2).all (segKeyPresent data) = false :=
            Bool.eq_false_iff.mpr hall
          rw [if_neg hall]
          simp [List.all_cons, hf]
      · have hf : segKeyPresent data s = false := Bool.eq_false_iff.mpr hk
        rw [if_neg hk]
        simp [List.all_cons, hf]

theorem keysPresent_eq_all (data : List (String × String)) (e : PathEntry) :
    keysPresent data e = e.path.all (segKeyPresent data) := by
  unfold keysPresent requiredKeys
  induction e.path with
  | nil => rfl
  | cons s rest ih =>
    by_cases h : s.data.contains '+' = true
    · simp only [List.filter_cons, h, if_true, List.map_cons, List.all_cons,
        segKeyPresent, h, Bool.not_true, Bool.false_or, ih]
    · have hf : s.data.contains '+' = false := Bool.eq_false_iff.mpr h
      simp only [List.filter_cons, hf, Bool.false_eq_true, if_false,
        List.all_cons, segKeyPresent, hf, Bool.not_false, Bool.true_or,
        Bool.true_and, ih]

theorem _to_path_loop_plain (data : List (String × String)) :
    ∀ (entries : List PathEntry) (res : List BuiltEntry),
      entries.all plainEntry = true →
      (_to_path_loop data entries res).2 =
        res ++ (entries.filter (keysPresent data)).map (builtOf data) := by
  intro entries
  induction entries with
  | nil => intro res _; simp [_to_path_loop]
  | cons e rest ih =>
    intro res h
    simp only [List.all_cons, Bool.and_eq_true] at h
    have hfmt := pyFormat_segs data e.path h.1
    by_cases hk : e.path.all (segKeyPresent data) = true
    · rw [if_pos hk] at hfmt
      rw [_to_path_loop_cons_some data e rest res _ hfmt, ih _ h.2]
      have hkp : keysPresent data e = true := by
        rw [keysPresent_eq_all]; exact hk
      simp [List.filter_cons, hkp, builtOf]
    · rw [if_neg hk] at hfmt
      rw [_to_path_loop_cons_none data e rest res hfmt, ih _ h.2]
      have hkp : keysPresent data e = false := by
        rw [keysPresent_eq_all]; exact Bool.eq_false_iff.mpr hk
      simp [List.filter_cons, hkp]

/-- C6: when the data mapping lacks a key required by some entry's
variable segment, `_to_path` skips exactly that entry (the format call
raises KeyError, caught by the `except ... continue`), still produces
the substituted entry for every entry whose required keys are all
present, and raises no error: on plain entries (no literal braces in
the segments) the output is exactly the key-complete entries, in order,
each materialized by substitution. -/
theorem C6_missing_key_skip (entries : List PathEntry)
    (data : List (String × String)) (h : entries.all plainEntry = true) :
    _to_path entries data =
      (entries.filter (keysPresent data)).map (builtOf data) := by
  unfold _to_path
  rw [_to_path_loop_plain data entries [] h]
  simp

theorem C6_witness :
    ([⟨["root", "+show+"], 493, true, ""⟩,
      ⟨["root", "+seq+"], 493, true, ""⟩,
      ⟨["root"], 493, true, ""⟩] : List PathEntry).all plainEntry = true ∧
    _to_path
      [⟨["root", "+show+"], 493, true, ""⟩,
       ⟨["root", "+seq+"], 493, true, ""⟩,
       ⟨["root"], 493, true, ""⟩]
      [("show", "rex")] =
      [⟨"root/rex", 493, true, ""⟩, ⟨"root", 493, true, ""⟩] :=
  ⟨by decide,
   (C6_missing_key_skip
      [⟨["root", "+show+"], 493, true, ""⟩,
       ⟨["root", "+seq+"], 493, true, ""⟩,
       ⟨["root"], 493, true, ""⟩]
      [("show", "rex")] (by decide)).trans rfl⟩

/-! ### Path search (`TemplateManager.find_path`, template.py lines
80-158) -/

/-- Characterwise test that `n` is a leading piece of the second list. -/
def startsWithL : List Char → List Char → Bool
  | [], _ => true
  | _ :: _, [] => false
  | a :: as, b :: bs => a == b && startsWithL as bs

/-- Python contiguous-substring test `n in hay`. -/
def isSubstr (n : List Char) : List Char → Bool
  | [] => n.isEmpty
  | c :: rest => startsWithL n (c :: rest) || isSubstr n rest

/-- The local `sanitize` of `find_path` (template.py lines 95-105):
`None` for a falsy value, strip every `'+'`, then drop the first and
last character (`var[1:-1]`) when a `'{'` is present. -/
def sanitizeF (var : String) : Option String :=
  if var.data.isEmpty then none
  else
    let v1 := var.data.filter (fun c => !(c == '+'))
    let v2 := if v1.contains '{' then (v1.drop 1).dropLast else v1
    some (String.mk v2)

/-- `sanitize(arg) or None` (template.py lines 112-113): the filter
argument is sanitized and an empty result is demoted to `None`. -/
def sanitizeArg : Option String → Option String
  | none => none
  | some v =>
    match sanitizeF v with
    | none => none
    | some s => if s.data.isEmpty then none else some s

/-- One round of the `contains` loop (template.py lines 136-144): a
`None` token (an empty token sanitized away) is tested with `in`
against each path element and raises `TypeError` at the first one; a
string token is a hit when it is a substring of at least one element. -/
def containsOne (path : List String) : Option String → Except RErr Bool
  | none =>
    match path with
    | [] => .ok false
    | _ :: _ => .error .typeError
  | some t => .ok (path.any (fun seg => isSubstr t.data seg.data))

/-- `all(outs)` over the `contains` tokens, in loop order
(template.py lines 135-147). -/
def containsAll (path : List String) :
    List (Option String) → Except RErr Bool
  | [] => .ok true
  | t :: rest => do
    let b ← containsOne path t
    let brest ← containsAll path rest
    pure (b && brest)

/-- The per-path filter of `find_path` (template.py lines 126-149):
sanitized first/last segment equality for `startwith`/`endswith` and
the `contains` scan; an empty path raises `IndexError` at `path[-1]`. -/
def pathMatch (startw endsw : Option String)
    (conts : List (Option String)) : List String → Except RErr Bool
  | [] => .error .indexError
  | p :: rest => do
    let slast := sanitizeF ((p :: rest).getLast (List.cons_ne_nil p rest))
    let sfirst := sanitizeF p
    let s := match startw with
      | none => true
      | some t => sfirst == some t
    let e := match endsw with
      | none => true
      | some t => slast == some t
    let c ← containsAll (p :: rest) conts
    pure (s && (e && c))

/-- The scan of `find_path` over the flattened paths: the first match
is returned, `none` when no path satisfies the criteria
(template.py lines 126-158). -/
def find_path_scan (startw endsw : Option String)
    (conts : List (Option String)) :
    List (List String) → Except RErr (Option (List String))
  | [] => .ok none
  | path :: rest => do
    let m ← pathMatch startw endsw conts path
    if m then pure (some path) else find_path_scan startw endsw conts rest

/-- `TemplateManager.find_path` (template.py lines 80-158): resolve and
flatten the template, sanitize the filter arguments, scan the flattened
paths in order. -/
def find_path (register : List Fragment) (fuel : Nat)
    (startwith : Option String) (contains : Option (List String))
    (endswith : Option String) (template_name : String) :
    Except RErr (Option (List String)) := do
  let built ← resolve_template register fuel template_name
  let resolved := resolve built
  let paths := resolved.map (fun item => item.path)
  find_path_scan (sanitizeArg startwith) (sanitizeArg endswith)
    ((contains.getD []).map (fun t => sanitizeF t)) paths

/-- The filter predicate of the claim, in its words: the sanitized
first segment equals the `startwith` token (when given), the sanitized
last segment equals the `endswith` token (when given), and every
`contains` token is a substring of at least one segment. -/
def claimMatches (startw endsw : Option String) (conts : List String)
    (path : List String) : Bool :=
  (match startw with
   | none => true
   | some t => path.head?.bind sanitizeF == some t) &&
  ((match endsw with
    | none => true
    | some t => path.getLast?.bind sanitizeF == some t) &&
   conts.all (fun t => path.any (fun seg => isSubstr t.data seg.data)))

theorem sanitizeArg_fixed (o : Option String)
    (h : o.all (fun t => sanitizeF t == some t) = true) :
    sanitizeArg o = o := by
  cases o with
  | none => rfl
  | some t =>
    simp only [Option.all] at h
    have ht : sanitizeF t = some t := by simpa using h
    have hne : t.data.isEmpty = false := by
      cases hd : t.data.isEmpty
      · rfl
      · rw [sanitizeF, if_pos hd] at ht
        exact absurd ht (by simp)
    simp [sanitizeArg, ht, hne]

theorem containsAll_of_some (path : List String) :
    ∀ (conts : List String),
      containsAll path (conts.map some) =
        .ok (conts.all
          (fun t => path.any (fun seg => isSubstr t.data seg.data))) := by
  intro conts
  induction conts with
  | nil => rfl
  | cons t rest ih =>
    simp only [List.map_cons, containsAll, containsOne, ih, List.all_cons]
    rfl

theorem pathMatch_eq_claimMatches (startw endsw : Option String)
    (conts : List String) (path : List String) (hne : path ≠ []) :
    pathMatch startw endsw (conts.map some) path =
      .ok (claimMatches startw endsw conts path) := by
  cases path with
  | nil => exact absurd rfl hne
  | cons p rest =>
    simp only [pathMatch, containsAll_of_some]
    have hlast : (p :: rest).getLast?.bind sanitizeF =
        sanitizeF ((p :: rest).getLast (List.cons_ne_nil p rest)) := by
      rw [List.getLast?_eq_getLast (p :: rest) (List.cons_ne_nil p rest)]
      rfl
    simp only [claimMatches, List.head?_cons, Option.bind_some, hlast]
    rfl

theorem find_path_scan_eq_find (startw endsw : Option String)
    (conts : List String) :
    ∀ (paths : List (List String)), (∀ p ∈ paths, p ≠ []) →
      find_path_scan startw endsw (conts.map some) paths =
        .ok (paths.find? (claimMatches startw endsw conts)) := by
  intro paths
  induction paths with
  | nil => intro _; rfl
  | cons path rest ih =>
    intro h
    have hne : path ≠ [] := h path (List.mem_cons_self path rest)
    simp only [find_path_scan,
      pathMatch_eq_claimMatches startw endsw conts path hne]
    cases hm : claimMatches startw endsw conts path with
    | true =>
      rw [List.find?_cons_of_pos _ hm]
      rfl
    | false =>
      rw [List.find?_cons_of_neg _ (by simp [hm])]
      have := ih (fun p hp => h p (List.mem_cons_of_mem path hp))
      simpa using this

theorem _resolve_path_ne_nil :
    ∀ (path : List String) (l : List Fragment),
      ∀ e ∈ _resolve path l, e.path ≠ [] := by
  intro path l
  induction path, l using _resolve.induct with
  | case1 path => rw [_resolve_nil]; intro e he; exact absurd he (by simp)
  | case2 path n f p c ch rest nm cp ih1 ih2 =>
    rw [_resolve_cons]
    intro e he
    rcases List.mem_cons.mp he with h | h
    · subst h; simp
    · rcases List.mem_append.mp h with h2 | h2
      · exact ih1 e h2
      · exact ih2 e h2

theorem resolve_path_ne_nil (schema : Fragment) :
    ∀ e ∈ resolve schema, e.path ≠ [] := by
  intro e he
  unfold resolve at he
  rcases List.mem_cons.mp he with h | h
  · subst h; simp
  · exact _resolve_path_ne_nil _ _ e h

/-- C7: `find_path` scans the flattened path list in order and returns
the first path whose sanitized first segment equals the `startwith`
token (when given), whose sanitized last segment equals the `endswith`
token (when given), and for which every `contains` token is a substring
of at least one segment; it returns `none` rather than raising when no
path qualifies.  The tokens are assumed already sanitized (no `'+'`, no
surrounding braces, nonempty), which is when the code's argument
sanitization is the identity. -/
theorem C7_first_match (register : List Fragment) (fuel : Nat)
    (startwith : Option String) (contains : Option (List String))
    (endswith : Option String) (template_name : String) (built : Fragment)
    (hres : resolve_template register fuel template_name = .ok built)
    (hs : startwith.all (fun t => sanitizeF t == some t) = true)
    (he : endswith.all (fun t => sanitizeF t == some t) = true)
    (hc : (contains.getD []).all (fun t => sanitizeF t == some t) = true) :
    find_path register fuel startwith contains endswith template_name =
      .ok (((resolve built).map (fun item => item.path)).find?
        (claimMatches startwith endswith (contains.getD []))) := by
  have hmap : (contains.getD []).map (fun t => sanitizeF t) =
      (contains.getD []).map some := by
    apply List.map_congr_left
    intro t ht
    have := List.all_eq_true.mp hc t ht
    simpa using this
  have hne : ∀ p ∈ (resolve built).map (fun item => item.path), p ≠ [] := by
    intro p hp
    rcases List.mem_map.mp hp with ⟨e, he2, hpe⟩
    subst hpe
    exact resolve_path_ne_nil built e he2
  show (resolve_template register fuel template_name >>= fun built2 =>
      find_path_scan (sanitizeArg startwith) (sanitizeArg endswith)
        (((contains.getD []).map (fun t => sanitizeF t)))
        ((resolve built2).map (fun item => item.path))) = _
  rw [hres]
  show find_path_scan (sanitizeArg startwith) (sanitizeArg endswith)
      (((contains.getD []).map (fun t => sanitizeF t)))
      ((resolve built).map (fun item => item.path)) = _
  rw [sanitizeArg_fixed startwith hs, sanitizeArg_fixed endswith he, hmap,
    find_path_scan_eq_find startwith endswith (contains.getD []) _ hne]

theorem C7_witness :
    (some "show").all (fun t => sanitizeF t == some t) = true ∧
    find_path
      [Fragment.mk "@+show+@" true none ""
        [Fragment.mk "ep" true none "" [],
         Fragment.mk "log" false none "x" []]] 1
      (some "show") none (some "ep") "@+show+@" =
      .ok (some ["+show+", "ep"]) := by
  refine ⟨by decide, ?_⟩
  have h1 : _resolve_template
      [Fragment.mk "@+show+@" true none ""
        [Fragment.mk "ep" true none "" [],
         Fragment.mk "log" false none "x" []]] 1
      [Fragment.mk "ep" true none "" [],
       Fragment.mk "log" false none "x" []] =
      .ok [Fragment.mk "ep" true none "" [],
       Fragment.mk "log" false none "x" []] :=
    _resolve_template_noRefList _ 1 _ (by simp +decide [noRefList_cons])
  have h2 := resolve_template_eq_ok
    [Fragment.mk "@+show+@" true none ""
      [Fragment.mk "ep" true none "" [],
       Fragment.mk "log" false none "x" []]] 1 "@+show+@"
    (Fragment.mk "@+show+@" true none ""
      [Fragment.mk "ep" true none "" [],
       Fragment.mk "log" false none "x" []])
    [Fragment.mk "ep" true none "" [],
     Fragment.mk "log" false none "x" []] rfl h1
  have hres : resolve_template
      [Fragment.mk "@+show+@" true none ""
        [Fragment.mk "ep" true none "" [],
         Fragment.mk "log" false none "x" []]] 1 "@+show+@" =
      .ok (Fragment.mk "@+show+@" true none ""
        [Fragment.mk "ep" true none "" [],
         Fragment.mk "log" false none "x" []]) := by
    rw [h2]
    dsimp only [Fragment.setChildren]
    rw [sortChildren_pair, if_pos (by decide), sortChildren_leaf,
      sortChildren_leaf]
  have h := C7_first_match
    [Fragment.mk "@+show+@" true none ""
      [Fragment.mk "ep" true none "" [],
       Fragment.mk "log" false none "x" []]] 1
    (some "show") none (some "ep") "@+show+@"
    (Fragment.mk "@+show+@" true none ""
      [Fragment.mk "ep" true none "" [],
       Fragment.mk "log" false none "x" []])
    hres (by decide) (by decide) (by decide)
  rw [h]
  have heval : resolve
      (Fragment.mk "@+show+@" true none ""
        [Fragment.mk "ep" true none "" [],
         Fragment.mk "log" false none "x" []]) =
      [⟨["+show+"], 777, true, ""⟩,
       ⟨["+show+", "ep"], 777, true, ""⟩,
       ⟨["+show+", "log"], 777, false, "x"⟩] := by
    unfold resolve
    dsimp only [Fragment.name, Fragment.children, Fragment.permission,
      Fragment.folder, Fragment.content]
    simp only [_resolve_cons, _resolve_nil]
    rfl
  rw [heval]
  rfl

/-! ### Registration (`TemplateManager.register_templates` /
`_register_templates`, template.py lines 341-428) -/

/-- A node of the template source tree on disk: a directory with its
listing (in `os.listdir` order) or a file with its content.  `mode` is
the permission value `stat.S_IMODE(os.stat(...).st_mode)`; the `oct()`
string formatting applied by the code is dropped, only the value is
kept. -/
inductive FSNode where
  | dir (name : String) (mode : Nat) (entries : List FSNode)
  | file (name : String) (mode : Nat) (content : String)

def FSNode.name : FSNode → String
  | .dir n _ _ => n
  | .file n _ _ => n

def FSNode.mode : FSNode → Nat
  | .dir _ m _ => m
  | .file _ m _ => m

def FSNode.isFile : FSNode → Bool
  | .dir _ _ _ => false
  | .file _ _ _ => true

/-- `sorted(entries, key=os.path.isfile(...))` (template.py line 400):
a stable sort on a Boolean key is the stable partition keeping the
directories first and the files last, each group in listing order. -/
def sortEntries (l : List FSNode) : List FSNode :=
  l.filter (fun e => ! e.isFile) ++ l.filter (fun e => e.isFile)

theorem mem_of_mem_sortEntries {a : FSNode} {l : List FSNode}
    (h : a ∈ sortEntries l) : a ∈ l := by
  rcases List.mem_append.mp h with h2 | h2
  · exact (List.mem_filter.mp h2).1
  · exact (List.mem_filter.mp h2).1

/-- One accepted entry (`item`) of `TemplateManager._register_templates`
(template.py lines 402-427): a file keeps its content; a directory
recurses into its sorted listing, skipping names that start with
`.git`. -/
def register_item : FSNode → Fragment
  | .file n m c => .mk n false (some m) c []
  | .dir n m entries =>
    .mk n true (some m) ""
      ((sortEntries entries).attach.filterMap (fun x =>
        if startsWithL ".git".data x.1.name.data then none
        else some (register_item x.1)))
termination_by e => sizeOf e
decreasing_by
  have hmem : x.1 ∈ entries := mem_of_mem_sortEntries x.2
  have h1 := List.sizeOf_lt_of_mem hmem
  simp only [FSNode.dir.sizeOf_spec]
  omega

/-- The `mapped` list `_register_templates` builds for a directory with
the given listing (template.py lines 395-427). -/
def _register_templates (entries : List FSNode) : List Fragment :=
  (sortEntries entries).filterMap (fun e =>
    if startsWithL ".git".data e.name.data then none
    else some (register_item e))

theorem filterMap_attach_val {α β : Type} (l : List α) (g : α → Option β) :
    l.attach.filterMap (fun x => g x.1) = l.filterMap g := by
  conv_rhs => rw [← List.attach_map_subtype_val l]
  rw [List.filterMap_map]
  rfl

theorem register_item_file (n : String) (m : Nat) (c : String) :
    register_item (.file n m c) = .mk n false (some m) c [] := by
  simp only [register_item]

theorem register_item_dir (n : String) (m : Nat) (entries : List FSNode) :
    register_item (.dir n m entries) =
      .mk n true (some m) "" (_register_templates entries) := by
  simp only [register_item, _register_templates]
  congr 1
  exact filterMap_attach_val (sortEntries entries)
    (fun e => if startsWithL ".git".data e.name.data then none
      else some (register_item e))

/-- `TemplateManager.register_templates` (template.py lines 341-378):
one register entry per `os.listdir` item of the template folder, in
listing order, always marked as a folder, with the recursive walk
filling the children; no name filter is applied at this level. -/
def register_templates (entries : List FSNode) : List Fragment :=
  entries.map (fun e =>
    .mk e.name true (some e.mode) ""
      (match e with
       | .dir _ _ ch => _register_templates ch
       | .file _ _ _ => []))

/-- The original C9 is false at the top level: a `.git` directory in the
template folder itself is registered, because the `register_templates`
loop over `os.listdir` has no name filter — only the recursive
`_register_templates` walk skips `.git`-prefixed names. -/
theorem C9_counterexample :
    (register_templates [FSNode.dir ".git" 493 []]).map Fragment.name =
      [".git"] ∧ startsWithL ".git".data ".git".data = true :=
  ⟨rfl, rfl⟩

theorem register_children_git_free_aux :
    ∀ (n : Nat) (l : List FSNode), sizeOf l ≤ n →
      ∀ fr ∈ allNodesList (_register_templates l),
        startsWithL ".git".data fr.name.data = false := by
  intro n
  induction n with
  | zero =>
    intro l hl
    exact absurd hl (by cases l <;> simp +arith)
  | succ m ih =>
    intro l hl fr hfr
    rcases mem_allNodesList.mp hfr with ⟨t, ht, hft⟩
    rcases List.mem_filterMap.mp ht with ⟨a, ha, hfa⟩
    by_cases hg : startsWithL ".git".data a.name.data = true
    · rw [if_pos hg] at hfa
      exact absurd hfa (by simp)
    · have hgf : startsWithL ".git".data a.name.data = false :=
        Bool.eq_false_iff.mpr hg
      rw [if_neg hg] at hfa
      have hta : t = register_item a := by
        have := Option.some.inj hfa
        exact this.symm
      have hal : a ∈ l := mem_of_mem_sortEntries ha
      have hsz : sizeOf a < sizeOf l := List.sizeOf_lt_of_mem hal
      cases a with
      | file na ma ca =>
        rw [hta, register_item_file] at hft
        rw [allNodes_mk, allNodesList_nil] at hft
        rcases List.mem_singleton.mp hft with rfl
        exact hgf
      | dir na ma ch =>
        rw [hta, register_item_dir] at hft
        rw [allNodes_mk] at hft
        rcases List.mem_cons.mp hft with rfl | hmem
        · exact hgf
        · have hch : sizeOf ch ≤ m := by
            simp only [FSNode.dir.sizeOf_spec] at hsz
            omega
          exact ih ch hch fr hmem

theorem register_children_git_free (l : List FSNode) :
    ∀ fr ∈ allNodesList (_register_templates l),
      startsWithL ".git".data fr.name.data = false :=
  fun fr h => register_children_git_free_aux (sizeOf l) l le_rfl fr h

/-- C9 (amended): the recursive registration walk skips every directory
entry whose name starts with `.git`, so no node below the top level of
the register carries such a name; the filter does NOT apply to the
top-level `os.listdir` loop of `register_templates`, where a `.git`
entry is registered (see the counterexample). -/
theorem C9_git_filtered_below_top (entries : List FSNode) :
    (register_templates entries).all
      (fun top => (allNodesList top.children).all
        (fun fr => ! startsWithL ".git".data fr.name.data)) = true := by
  rw [List.all_eq_true]
  intro top htop
  rcases List.mem_map.mp htop with ⟨e, he, hte⟩
  rw [List.all_eq_true]
  intro fr hfr
  subst hte
  cases e with
  | file na ma ca =>
    rw [Fragment.children] at hfr
    exact absurd hfr (by rw [allNodesList_nil]; simp)
  | dir na ma ch =>
    rw [Fragment.children] at hfr
    simp only [register_children_git_free ch fr hfr, Bool.not_false]

/-! ### Parsing (`FileSystemManager.parse` / `_to_parser`,
filesystem.py lines 83-134) -/

/-- One piece of a built parser between two `os.sep` separators: a
literal segment, or the named group a `+var+` segment is replaced with
(filesystem.py lines 122-131). -/
inductive PSeg where
  | lit : List Char → PSeg
  | grp : String → PSeg

/-- The character class of a named group: `regexp_config` assigns
`[a-z_]+` to `department` and `[a-zA-Z0-9_]+` to `show`, `sequence` and
`shot`; the default pattern is also `[a-zA-Z0-9_]+`
(filesystem.py lines 17-22 and 28). -/
def classFor (n : String) (c : Char) : Bool :=
  if n = "department" then c.isLower || c == '_'
  else c.isAlphanum || c == '_'

/-- One parser piece per path segment (filesystem.py lines 122-131):
a `+var+` segment is replaced as a whole by the named group of
`var = item.split('+')[1]`, any other segment is kept literally. -/
def parserSeg (s : String) : PSeg :=
  if s.data.contains '+' then PSeg.grp (String.mk (varName s))
  else PSeg.lit s.data

/-- `FileSystemManager._to_parser` (filesystem.py lines 113-134), one
parser per flattened entry; the `os.sep` joining of the pieces is kept
implicit in the piece list (`reMatch` matches one `'/'` between two
pieces). -/
def _to_parsers (paths : List PathEntry) : List (List PSeg) :=
  paths.map (fun e => e.path.map parserSeg)

/-- The longest leading run of class characters, with the rest of the
input: the match of a greedy `[...]+` group.  Backtracking never gives
a different outcome here because no class contains the separator `'/'`,
the only pattern character that can follow a group. -/
def takeRun (cls : Char → Bool) : List Char → List Char × List Char
  | [] => ([], [])
  | c :: rest =>
    if cls c then
      let pr := takeRun cls rest
      (c :: pr.1, pr.2)
    else ([], c :: rest)

/-- Match one parser piece at the head of the input, returning the
named-group bindings and the remaining input. -/
def matchSeg : PSeg → List Char → Option (List (String × String) × List Char)
  | .lit l, input =>
    if startsWithL l input then some ([], input.drop l.length) else none
  | .grp n, input =>
    let pr := takeRun (classFor n) input
    if pr.1.isEmpty then none else some ([(n, String.mk pr.1)], pr.2)

/-- `re.match` of a built parser against a path string
(filesystem.py lines 99-105): the pieces in order, one `'/'` between
two pieces; `re.match` is a prefix match, so input left over after the
last piece is ignored.  The bindings model the `groupdict` (a parser
built from a one-variable template binds each name at most once; with a
repeated group name `re.compile` itself would fail). -/
def reMatch : List PSeg → List Char → Option (List (String × String))
  | [], _ => some []
  | [s], input => (matchSeg s input).map (fun pr => pr.1)
  | s :: s2 :: rest, input =>
    match matchSeg s input with
    | none => none
    | some (env, t) =>
      match t with
      | '/' :: t2 => (reMatch (s2 :: rest) t2).map (fun env2 => env ++ env2)
      | _ => none

/-- The accumulation loop of `parse` (filesystem.py lines 98-107): keep
each nonempty `groupdict` not collected yet, in parser order. -/
def collectMatches (path : List Char) :
    List (List PSeg) → List (List (String × String)) →
      List (List (String × String))
  | [], acc => acc
  | p :: rest, acc =>
    match reMatch p path with
    | none => collectMatches path rest acc
    | some d =>
      if d.isEmpty then collectMatches path rest acc
      else if acc.contains d then collectMatches path rest acc
      else collectMatches path rest (acc ++ [d])

/-- A comparison of two bindings, keys first. -/
def pairLE (a b : String × String) : Bool :=
  if a.1 == b.1 then lexLE a.2.data b.2.data else lexLE a.1.data b.1.data

/-- Python 2 `matched_results.sort()` (filesystem.py line 109) orders
dictionaries by the interpreter's total dictionary order (size first,
then smallest differing key).  The embedding mirrors it with length
first and then the first differing binding; `parse` results are only
inspected through membership, which any reordering preserves. -/
def envLE : List (String × String) → List (String × String) → Bool
  | [], _ => true
  | _ :: _, [] => false
  | a :: as, b :: bs => if a = b then envLE as bs else pairLE a b

/-- `FileSystemManager.parse` (filesystem.py lines 83-111): resolve and
flatten the template, build one parser per entry, collect the matching
nonempty group dictionaries, sort and reverse. -/
def parse (register : List Fragment) (fuel : Nat) (path : String)
    (name : String) : Except RErr (List (List (String × String))) := do
  let built ← resolve_template register fuel name
  let results := resolve built
  let parsers := _to_parsers results
  pure ((List.insertionSort (fun a b => envLE a b = true)
    (collectMatches path.data parsers [])).reverse)

/-- A character of the class `[a-zA-Z0-9_]`. -/
def wordChar (c : Char) : Bool := c.isAlphanum || c == '_'

/-- A segment within the scope of the round-trip claim: a variable
segment named `show`, or a nonempty literal of word characters (so the
literal is its own regular expression and the default group class
covers the substituted value). -/
def segSafe (s : String) : Bool :=
  if s.data.contains '+' then varName s == "show".data
  else !s.data.isEmpty && s.data.all wordChar

theorem startsWithL_append (l r : List Char) :
    startsWithL l (l ++ r) = true := by
  induction l with
  | nil => rfl
  | cons c cs ih => simp [startsWithL, ih]

theorem takeRun_append (cls : Char → Bool) :
    ∀ (a b : List Char), a.all cls = true →
      b.head?.all (fun c => ! cls c) = true →
      takeRun cls (a ++ b) = (a, b) := by
  intro a
  induction a with
  | nil =>
    intro b _ hb
    cases b with
    | nil => rfl
    | cons c rest =>
      have hc : cls c = false := by simpa using hb
      show takeRun cls (c :: rest) = ([], c :: rest)
      simp [takeRun, hc]
  | cons x xs ih =>
    intro b ha hb
    simp only [List.all_cons, Bool.and_eq_true] at ha
    show takeRun cls (x :: (xs ++ b)) = (x :: xs, b)
    simp [takeRun, ha.1, ih b ha.2 hb]

theorem reMatch_cons_cons (s s2 : PSeg) (rest : List PSeg)
    (input : List Char) :
    reMatch (s :: s2 :: rest) input =
      match matchSeg s input with
      | none => none
      | some (env, t) =>
        match t with
        | '/' :: t2 => (reMatch (s2 :: rest) t2).map (fun env2 => env ++ env2)
        | _ => none := rfl

theorem reMatch_cons_cons_step (s s2 : PSeg) (rest : List PSeg)
    (input t2 : List Char) (env : List (String × String))
    (hm : matchSeg s input = some (env, '/' :: t2)) :
    reMatch (s :: s2 :: rest) input =
      (reMatch (s2 :: rest) t2).map (fun env2 => env ++ env2) := by
  rw [reMatch_cons_cons, hm]
  rfl

theorem reMatch_subst :
    ∀ (segs : List String), segs.all segSafe = true →
      reMatch (segs.map parserSeg)
          (joinSep (segs.map (substSeg [("show", "rex")]))) =
        some (List.replicate
          (segs.countP (fun s => s.data.contains '+')) ("show", "rex")) := by
  intro segs
  induction segs with
  | nil => intro _; rfl
  | cons s rest ih =>
    intro h
    simp only [List.all_cons, Bool.and_eq_true] at h
    cases rest with
    | nil =>
      by_cases hv : s.data.contains '+' = true
      · have hn : varName s = "show".data := by
          have h1 := h.1; rw [segSafe, if_pos hv] at h1; simpa using h1
        have hn2 : String.mk (varName s) = "show" := by rw [hn]
        have hsub : substSeg [("show", "rex")] s = "rex".data := by
          simp only [substSeg, if_pos hv, hn2]; rfl
        have hps : parserSeg s = PSeg.grp "show" := by
          rw [parserSeg, if_pos hv, hn2]
        simp only [List.map_cons, List.map_nil, joinSep_single, hsub, hps,
          List.countP_cons, List.countP_nil, hv, if_true]
        rfl
      · have hvf : s.data.contains '+' = false := Bool.eq_false_iff.mpr hv
        have hsw : startsWithL s.data s.data = true := by
          have h2 := startsWithL_append s.data []
          rwa [List.append_nil] at h2
        have hsub : substSeg [("show", "rex")] s = s.data := by
          simp only [substSeg, hvf, Bool.false_eq_true, if_false]
        have hps : parserSeg s = PSeg.lit s.data := by
          rw [parserSeg, if_neg (by simpa using hvf)]
        simp only [List.map_cons, List.map_nil, joinSep_single, hsub, hps,
          List.countP_cons, List.countP_nil, hvf, Bool.false_eq_true,
          if_false]
        simp [reMatch, matchSeg, hsw]
    | cons s2 rest2 =>
      have hjoin : joinSep ((s :: s2 :: rest2).map
            (substSeg [("show", "rex")])) =
          substSeg [("show", "rex")] s ++
            '/' :: joinSep ((s2 :: rest2).map (substSeg [("show", "rex")])) := by
        rw [List.map_cons, joinSep_cons_of_ne_nil _ _ (by simp)]
      have ihr := ih h.2
      by_cases hv : s.data.contains '+' = true
      · have hn : varName s = "show".data := by
          have h1 := h.1; rw [segSafe, if_pos hv] at h1; simpa using h1
        have hn2 : String.mk (varName s) = "show" := by rw [hn]
        have hsub : substSeg [("show", "rex")] s = "rex".data := by
          simp only [substSeg, if_pos hv, hn2]; rfl
        have hps : parserSeg s = PSeg.grp "show" := by
          rw [parserSeg, if_pos hv, hn2]
        have htake : takeRun (classFor "show")
            ("rex".data ++ '/' :: joinSep ((s2 :: rest2).map
              (substSeg [("show", "rex")]))) =
            ("rex".data,
             '/' :: joinSep ((s2 :: rest2).map (substSeg [("show", "rex")]))) :=
          takeRun_append (classFor "show") "rex".data _ (by decide)
            (by rw [List.head?_cons]; decide)
        have hm : matchSeg (PSeg.grp "show")
            ("rex".data ++ '/' :: joinSep ((s2 :: rest2).map
              (substSeg [("show", "rex")]))) =
            some ([("show", "rex")],
              '/' :: joinSep ((s2 :: rest2).map (substSeg [("show", "rex")]))) := by
          simp only [matchSeg, htake]
          rw [if_neg (by decide)]
        rw [List.map_cons] at ihr
        rw [hjoin, hsub, List.map_cons, List.map_cons, hps,
          reMatch_cons_cons_step _ _ _ _ _ _ hm, ihr, Option.map_some']
        simp only [List.countP_cons, hv, if_true]
        rw [List.replicate_succ]
        rfl
      · have hvf : s.data.contains '+' = false := Bool.eq_false_iff.mpr hv
        have hsub : substSeg [("show", "rex")] s = s.data := by
          simp only [substSeg, hvf, Bool.false_eq_true, if_false]
        have hps : parserSeg s = PSeg.lit s.data := by
          rw [parserSeg, if_neg (by simpa using hvf)]
        have hm : matchSeg (PSeg.lit s.data)
            (s.data ++ '/' :: joinSep ((s2 :: rest2).map
              (substSeg [("show", "rex")]))) =
            some ([],
              '/' :: joinSep ((s2 :: rest2).map (substSeg [("show", "rex")]))) := by
          simp only [matchSeg, startsWithL_append, if_true]
          rw [List.drop_left]
        rw [List.map_cons] at ihr
        rw [hjoin, hsub, List.map_cons, List.map_cons, hps,
          reMatch_cons_cons_step _ _ _ _ _ _ hm, ihr, Option.map_some']
        simp only [List.countP_cons, hvf, Bool.false_eq_true, if_false,
          List.nil_append]
        rfl

theorem collectMatches_cons (path : List Char) (p : List PSeg)
    (rest : List (List PSeg)) (acc : List (List (String × String))) :
    collectMatches path (p :: rest) acc =
      match reMatch p path with
      | none => collectMatches path rest acc
      | some d =>
        if d.isEmpty then collectMatches path rest acc
        else if acc.contains d then collectMatches path rest acc
        else collectMatches path rest (acc ++ [d]) := rfl

theorem collectMatches_cons_none (path : List Char) (p : List PSeg)
    (rest : List (List PSeg)) (acc : List (List (String × String)))
    (h : reMatch p path = none) :
    collectMatches path (p :: rest) acc = collectMatches path rest acc := by
  rw [collectMatches_cons, h]

theorem collectMatches_cons_some (path : List Char) (p : List PSeg)
    (rest : List (List PSeg)) (acc : List (List (String × String)))
    (d : List (String × String)) (h : reMatch p path = some d) :
    collectMatches path (p :: rest) acc =
      if d.isEmpty then collectMatches path rest acc
      else if acc.contains d then collectMatches path rest acc
      else collectMatches path rest (acc ++ [d]) := by
  rw [collectMatches_cons, h]

theorem mem_collectMatches_acc (path : List Char) :
    ∀ (parsers : List (List PSeg)) (acc : List (List (String × String)))
      (d : List (String × String)), d ∈ acc →
      d ∈ collectMatches path parsers acc := by
  intro parsers
  induction parsers with
  | nil => intro acc d hd; exact hd
  | cons p rest ih =>
    intro acc d hd
    cases hr : reMatch p path with
    | none =>
      rw [collectMatches_cons_none path p rest acc hr]
      exact ih acc d hd
    | some d2 =>
      rw [collectMatches_cons_some path p rest acc d2 hr]
      by_cases h1 : d2.isEmpty = true
      · rw [if_pos h1]; exact ih acc d hd
      · rw [if_neg h1]
        by_cases h2 : acc.contains d2 = true
        · rw [if_pos h2]; exact ih acc d hd
        · rw [if_neg h2]; exact ih _ d (List.mem_append_left _ hd)

theorem mem_collectMatches (path : List Char) (d : List (String × String))
    (hne : d.isEmpty = false) :
    ∀ (parsers : List (List PSeg)) (acc : List (List (String × String))),
      (∃ p ∈ parsers, reMatch p path = some d) →
      d ∈ collectMatches path parsers acc := by
  intro parsers
  induction parsers with
  | nil =>
    intro acc h
    rcases h with ⟨p, hp, _⟩
    exact absurd hp (by simp)
  | cons p rest ih =>
    intro acc h
    rcases h with ⟨q, hq, hmq⟩
    cases hr : reMatch p path with
    | none =>
      rw [collectMatches_cons_none path p rest acc hr]
      rcases List.mem_cons.mp hq with rfl | hq2
      · rw [hmq] at hr; exact absurd hr (by simp)
      · exact ih acc ⟨q, hq2, hmq⟩
    | some d2 =>
      rw [collectMatches_cons_some path p rest acc d2 hr]
      rcases List.mem_cons.mp hq with rfl | hq2
      · have hd2 : d2 = d := by rw [hmq] at hr; exact (Option.some.inj hr).symm
        subst hd2
        rw [if_neg (by simp [hne])]
        by_cases h2 : acc.contains d2 = true
        · rw [if_pos h2]
          exact mem_collectMatches_acc path rest acc d2 (by simpa using h2)
        · rw [if_neg h2]
          exact mem_collectMatches_acc path rest _ d2
            (List.mem_append_right _ (List.mem_singleton.mpr rfl))
      · by_cases h1 : d2.isEmpty = true
        · rw [if_pos h1]; exact ih acc ⟨q, hq2, hmq⟩
        · rw [if_neg h1]
          by_cases h2 : acc.contains d2 = true
          · rw [if_pos h2]; exact ih acc ⟨q, hq2, hmq⟩
          · rw [if_neg h2]; exact ih _ ⟨q, hq2, hmq⟩

theorem braceFree_of_word :
    ∀ (l : List Char), l.all wordChar = true → braceFree l = true := by
  intro l h
  rw [braceFree_iff]
  constructor
  · cases hc : l.contains '{' with
    | false => rfl
    | true =>
      have hm : '{' ∈ l := by simpa using hc
      have := List.all_eq_true.mp h _ hm
      exact absurd this (by decide)
  · cases hc : l.contains '}' with
    | false => rfl
    | true =>
      have hm : '}' ∈ l := by simpa using hc
      have := List.all_eq_true.mp h _ hm
      exact absurd this (by decide)

theorem segSafe_plain (s : String) (h : segSafe s = true) :
    plainSeg s = true := by
  by_cases hv : s.data.contains '+' = true
  · rw [segSafe, if_pos hv] at h
    have hn : varName s = "show".data := by simpa using h
    rw [plainSeg, if_pos hv, hn]
    decide
  · rw [segSafe, if_neg hv] at h
    simp only [Bool.and_eq_true] at h
    rw [plainSeg, if_neg hv]
    exact braceFree_of_word s.data h.2

theorem segSafe_keyPresent (s : String) (h : segSafe s = true) :
    segKeyPresent [("show", "rex")] s = true := by
  by_cases hv : s.data.contains '+' = true
  · rw [segSafe, if_pos hv] at h
    have hn : varName s = "show".data := by simpa using h
    have hn2 : String.mk (varName s) = "show" := by rw [hn]
    simp only [segKeyPresent, hn2]
    rw [Bool.or_eq_true]
    exact Or.inr rfl
  · simp only [segKeyPresent, Bool.or_eq_true, Bool.not_eq_true']
    exact Or.inl (Bool.eq_false_iff.mpr hv)

/-- C2: for a template whose flattened entries are made of word-literal
segments and variable segments named `show` (the claim's one-variable
template), materializing an entry that passes once through the variable
with `{show: "rex"}` puts its substituted entry in the `_to_path`
output, and parsing that entry's concrete path string against the same
template yields a result set containing the mapping `show -> "rex"`:
the parser built from that same entry matches the string, binds `show`
to `"rex"`, and the collected dictionary survives the nonempty/dedup
filter and the final sort-and-reverse. -/
theorem C2_round_trip (register : List Fragment) (fuel : Nat)
    (name : String) (built : Fragment)
    (hres : resolve_template register fuel name = .ok built)
    (hsafe : (resolve built).all (fun e2 => e2.path.all segSafe) = true)
    (e : PathEntry) (he : e ∈ resolve built)
    (hone : e.path.countP (fun s => s.data.contains '+') = 1) :
    builtOf [("show", "rex")] e ∈
      _to_path (resolve built) [("show", "rex")] ∧
    ∃ out, parse register fuel (builtOf [("show", "rex")] e).path name =
        .ok out ∧ [("show", "rex")] ∈ out := by
  have hsafeE : e.path.all segSafe = true := List.all_eq_true.mp hsafe e he
  have hplain : (resolve built).all plainEntry = true := by
    rw [List.all_eq_true]
    intro e2 he2
    rw [plainEntry, List.all_eq_true]
    intro s hs
    exact segSafe_plain s
      (List.all_eq_true.mp (List.all_eq_true.mp hsafe e2 he2) s hs)
  have hkeys : keysPresent [("show", "rex")] e = true := by
    rw [keysPresent_eq_all, List.all_eq_true]
    intro s hs
    exact segSafe_keyPresent s (List.all_eq_true.mp hsafeE s hs)
  constructor
  · unfold _to_path
    rw [_to_path_loop_plain [("show", "rex")] (resolve built) [] hplain]
    rw [List.nil_append]
    exact List.mem_map_of_mem _ (List.mem_filter.mpr ⟨he, hkeys⟩)
  · refine ⟨(List.insertionSort (fun a b => envLE a b = true)
      (collectMatches (builtOf [("show", "rex")] e).path.data
        (_to_parsers (resolve built)) [])).reverse, ?_, ?_⟩
    · show (resolve_template register fuel name >>= fun built2 =>
        pure ((List.insertionSort (fun a b => envLE a b = true)
          (collectMatches (builtOf [("show", "rex")] e).path.data
            (_to_parsers (resolve built2)) [])).reverse)) = _
      rw [hres]
      rfl
    · have hpath : (builtOf [("show", "rex")] e).path.data =
          joinSep (e.path.map (substSeg [("show", "rex")])) := rfl
      have hmatch : reMatch (e.path.map parserSeg)
          ((builtOf [("show", "rex")] e).path.data) =
          some [("show", "rex")] := by
        rw [hpath, reMatch_subst e.path hsafeE, hone, List.replicate_one]
      apply List.mem_reverse.mpr
      apply (List.Perm.mem_iff (List.perm_insertionSort _ _)).mpr
      exact mem_collectMatches _ [("show", "rex")] (by decide)
        (_to_parsers (resolve built)) []
        ⟨e.path.map parserSeg, List.mem_map_of_mem _ he, hmatch⟩

theorem C2_witness :
    builtOf [("show", "rex")] ⟨["+show+", "ep"], 777, true, ""⟩ ∈
      _to_path (resolve (Fragment.mk "@+show+@" true none ""
        [Fragment.mk "ep" true none "" []])) [("show", "rex")] ∧
    ∃ out, parse
        [Fragment.mk "@+show+@" true none ""
          [Fragment.mk "ep" true none "" []]] 1
        (builtOf [("show", "rex")] ⟨["+show+", "ep"], 777, true, ""⟩).path
        "@+show+@" = .ok out ∧ [("show", "rex")] ∈ out := by
  have h1 : _resolve_template
      [Fragment.mk "@+show+@" true none ""
        [Fragment.mk "ep" true none "" []]] 1
      [Fragment.mk "ep" true none "" []] =
      .ok [Fragment.mk "ep" true none "" []] :=
    _resolve_template_noRefList _ 1 _ (by simp +decide [noRefList_cons])
  have h2 := resolve_template_eq_ok
    [Fragment.mk "@+show+@" true none ""
      [Fragment.mk "ep" true none "" []]] 1 "@+show+@"
    (Fragment.mk "@+show+@" true none ""
      [Fragment.mk "ep" true none "" []])
    [Fragment.mk "ep" true none "" []] rfl h1
  have hres : resolve_template
      [Fragment.mk "@+show+@" true none ""
        [Fragment.mk "ep" true none "" []]] 1 "@+show+@" =
      .ok (Fragment.mk "@+show+@" true none ""
        [Fragment.mk "ep" true none "" []]) := by
    rw [h2]
    dsimp only [Fragment.setChildren]
    rw [sortChildren_single, sortChildren_leaf]
  have heval : resolve
      (Fragment.mk "@+show+@" true none ""
        [Fragment.mk "ep" true none "" []]) =
      [⟨["+show+"], 777, true, ""⟩, ⟨["+show+", "ep"], 777, true, ""⟩] := by
    unfold resolve
    dsimp only [Fragment.name, Fragment.children, Fragment.permission,
      Fragment.folder, Fragment.content]
    simp only [_resolve_cons, _resolve_nil]
    rfl
  exact C2_round_trip
    [Fragment.mk "@+show+@" true none ""
      [Fragment.mk "ep" true none "" []]] 1 "@+show+@"
    (Fragment.mk "@+show+@" true none ""
      [Fragment.mk "ep" true none "" []])
    hres
    (by rw [heval]; decide)
    ⟨["+show+", "ep"], 777, true, ""⟩
    (by rw [heval]; exact List.mem_cons_of_mem _ (List.mem_cons_self _ _))
    (by decide)

end Ade
